import Mathlib

/-!
# Format detection of `GenericAssetFile` (src/Core/AssetFile.cpp)

A shallow embedding of the two byte-cursor readers and of the constructor
`GenericAssetFile::GenericAssetFile(fData, fName, fPath)`, which probes a byte
buffer against five container layouts in a fixed order.

Modelling conventions.

* A buffer is a `List Byte` with `Byte = Fin 256` (`std::vector<unsigned char>`).
* `int`, `std::int32_t` and `std::int16_t` values are mathematical integers;
  `toInt32` and `toInt16` are applied wherever a value computed from buffer
  contents is narrowed or may leave the 32-bit range (two's-complement
  wrap-around).  `packFileSize` is the buffer length itself: buffers are taken
  to be shorter than `2^31` bytes, so `int packFileSize = data.size()` is exact.
* The cursor `index` only ever takes non-negative values (it is set to `0`,
  incremented, or increased by a size that was checked to be non-negative),
  so it is a `Nat`.
* `bytes[i]` on a `std::vector` is unchecked.  Every element access is logged,
  and an access at `i >= size` stops the run without a value (`Run.val = none`).
* The two operands `bytes[index++]` of a reader are evaluated left to right,
  as the readers' documentation (little-endian) describes.
* What an access past the end makes of the bytes that happen to follow the
  vector is evaluated with `classifyMem`: the same statements, run on a memory
  that holds the vector at its start, with `packFileSize` the vector's size.
-/

namespace AssetFile

/-- One `unsigned char`. -/
abbrev Byte := Fin 256

/-- Modelled from the spec: the format enumeration of `AssetFile.hpp` (the header
is not among the sources).  The constructor names are the ones used in
`AssetFile.cpp`; in the spec's words they are `GENERIC`, `PACK_OFFSET_SIZE`,
`PACK_OFFSET_ONLY`, `PACK_OFFSET_ALT`, `GRAPHICS_FILE`, `PACK_MINIMAL` and
`TEXT_PACK`, in this order. -/
inductive Format where
  | FORMAT_FILE_GENERIC
  | FORMAT_PK_OFFS_SIZE
  | FORMAT_PK_OFFS
  | FORMAT_PK_OFFS_ALT
  | FORMAT_FILE_GFX
  | FORMAT_PK_MIN
  | FORMAT_FILE_TXT_PK
  deriving DecidableEq, Repr

open Format

/-- The outcome of running a piece of the program on a buffer: the positions of
all vector elements it accessed, in order, and its result.  The result is
`none` when the run stopped at an access outside the vector. -/
inductive Run (α : Type) where
  | mk (reads : List Nat) (val : Option α)
  deriving DecidableEq, Repr

/-- The positions of the vector elements accessed, in order. -/
def Run.reads {α : Type} : Run α → List Nat
  | .mk reads _ => reads

/-- The result, `none` when the run stopped at an access outside the vector. -/
def Run.val {α : Type} : Run α → Option α
  | .mk _ val => val

/-- A run that accesses nothing and yields `a`. -/
def Run.ret {α : Type} (a : α) : Run α := ⟨[], some a⟩

/-- Sequencing: the accesses of `m`, then (if `m` produced a value) those of `f`. -/
def Run.andThen {α β : Type} (m : Run α) (f : α → Run β) : Run β :=
  match m.val with
  | none => ⟨m.reads, none⟩
  | some a => ⟨m.reads ++ (f a).reads, (f a).val⟩

instance : Monad Run where
  pure := Run.ret
  bind := Run.andThen

/-- The element access `bytes[i]`: logged, and without a value when `i` is not
below the size of the vector. -/
def byteAt (bytes : List Byte) (i : Nat) : Run Byte := ⟨[i], bytes[i]?⟩

/-- Narrowing to `std::int32_t` (two's complement): the representative of `x`
modulo `2^32` in the range `-2^31 .. 2^31 - 1`. -/
def toInt32 (x : Int) : Int :=
  let r : Nat := (x % 4294967296).toNat
  if r < 2147483648 then (r : Int) else (r : Int) - 4294967296

/-- Narrowing to `std::int16_t` (two's complement): the representative of `x`
modulo `2^16` in the range `-2^15 .. 2^15 - 1`. -/
def toInt16 (x : Int) : Int :=
  let r : Nat := (x % 65536).toNat
  if r < 32768 then (r : Int) else (r : Int) - 65536

/-- `getShortFromBytes` (lines 16-18): the value returned and the advanced index. -/
def getShortFromBytes (bytes : List Byte) (index : Nat) : Run (Int × Nat) := do
  let b0 ← byteAt bytes index
  let b1 ← byteAt bytes (index + 1)
  pure (toInt16 (((b0.val &&& 0xFF) + ((b1.val &&& 0xFF) <<< 8) : Nat)), index + 2)

/-- `getIntFromBytes` (lines 26-28): the value returned and the advanced index. -/
def getIntFromBytes (bytes : List Byte) (index : Nat) : Run (Int × Nat) := do
  let b0 ← byteAt bytes index
  let b1 ← byteAt bytes (index + 1)
  let b2 ← byteAt bytes (index + 2)
  let b3 ← byteAt bytes (index + 3)
  pure (toInt32 (((b0.val &&& 0xFF) + ((b1.val &&& 0xFF) <<< 8)
    + ((b2.val &&& 0xFF) <<< 16) + ((b3.val &&& 0xFF) <<< 24) : Nat)), index + 4)

/-! ### Offset+size format (lines 48-68) -/

/-- The `for` loop of lines 53-63 with `n` iterations left.  Yields `matchFound`
and `index`. -/
def offsSizeLoop (data : List Byte) (packFileSize fileCount : Int) :
    Nat → Nat → Run (Bool × Nat)
  | 0, index => pure (true, index)
  | n + 1, index => do
    let (subFileOffset, index) ← getIntFromBytes data index
    let (subFileSize, index) ← getIntFromBytes data index
    if subFileOffset > packFileSize - (fileCount * 8 + 1)
        ∨ subFileSize > packFileSize - (fileCount * 8 + 1) then
      pure (false, 0)
    else
      offsSizeLoop data packFileSize fileCount n index

/-- Lines 48-68.  Yields whether the format was set to `FORMAT_PK_OFFS_SIZE`
(the constructor then returns) and the value of `index` afterwards. -/
def matchOffsSize (data : List Byte) (packFileSize : Int) : Run (Bool × Nat) := do
  let index := 0
  let b ← byteAt data index
  let index := index + 1
  let fileCount : Int := b.val
  if fileCount * 8 + 1 < packFileSize ∧ fileCount > 0 then
    offsSizeLoop data packFileSize fileCount fileCount.toNat index
  else
    pure (false, index)

/-! ### Offset format (lines 70-101) -/

/-- The first `for` loop (lines 76-86) with `n` iterations left.  Yields
`matchFound`, `index` and `fileOffsets`. -/
def offsLoop (data : List Byte) (packFileSize fileCount : Int) :
    Nat → Nat → List Int → Run (Bool × Nat × List Int)
  | 0, index, fileOffsets => pure (true, index, fileOffsets)
  | n + 1, index, fileOffsets => do
    let (subFileOffset, index) ← getIntFromBytes data index
    if subFileOffset > packFileSize - (fileCount * 4 + 2) then
      pure (false, 0, fileOffsets)
    else
      offsLoop data packFileSize fileCount n index (fileOffsets ++ [subFileOffset])

/-- The second `for` loop (lines 88-96), entered with `matchFound` true, with
`n` iterations left and loop variable `i`.  Yields `matchFound` and `index`.
Both `fileOffsets[i]` and `fileOffsets[i+1]` exist: the first loop pushed
`fileCount` offsets and `i < fileCount - 1`. -/
def offsSizesLoop (packFileSize fileCount : Int) (fileOffsets : List Int) :
    Nat → Nat → Nat → Bool × Nat
  | 0, _, index => (true, index)
  | n + 1, i, index =>
    let subFileSize := toInt32 (fileOffsets.getD (i + 1) 0 - fileOffsets.getD i 0)
    if subFileSize > packFileSize - (fileCount * 4 + 2) ∨ subFileSize < 0 then
      (false, 0)
    else
      offsSizesLoop packFileSize fileCount fileOffsets n (i + 1) index

/-- Lines 70-101, entered with the cursor at `index`.  Yields whether the format
was set to `FORMAT_PK_OFFS` and the value of `index` afterwards. -/
def matchOffs (data : List Byte) (packFileSize : Int) (index : Nat) : Run (Bool × Nat) := do
  let (fileCount, index) ← getShortFromBytes data index
  if fileCount * 4 + 2 < packFileSize ∧ fileCount > 0 then
    let (matchFound, index, fileOffsets) ←
      offsLoop data packFileSize fileCount fileCount.toNat index []
    if matchFound then
      pure (offsSizesLoop packFileSize fileCount fileOffsets (fileCount - 1).toNat 0 index)
    else
      pure (false, index)
  else
    pure (false, index)

/-! ### Alt offset format (lines 103-139) -/

/-- The first `for` loop (lines 109-124) with `n` iterations left. -/
def offsAltLoop (data : List Byte) (packFileSize fileCount : Int) :
    Nat → Nat → List Int → Run (Bool × Nat × List Int)
  | 0, index, fileOffsets => pure (true, index, fileOffsets)
  | n + 1, index, fileOffsets =>
    if (index : Int) + 4 > packFileSize then
      pure (false, 0, fileOffsets)
    else do
      let (subFileOffset, index) ← getIntFromBytes data index
      if subFileOffset > toInt32 (packFileSize - toInt32 (fileCount * 4 + 4)) then
        pure (false, 0, fileOffsets)
      else
        offsAltLoop data packFileSize fileCount n index (fileOffsets ++ [subFileOffset])

/-- The second `for` loop (lines 126-134), entered with `matchFound` true. -/
def offsAltSizesLoop (packFileSize fileCount : Int) (fileOffsets : List Int) :
    Nat → Nat → Nat → Bool × Nat
  | 0, _, index => (true, index)
  | n + 1, i, index =>
    let subFileSize := toInt32 (toInt32 (fileOffsets.getD (i + 1) 0 - fileOffsets.getD i 0) + 1)
    if subFileSize > toInt32 (packFileSize - toInt32 (fileCount * 4 + 4)) ∨ subFileSize < 0 then
      (false, 0)
    else
      offsAltSizesLoop packFileSize fileCount fileOffsets n (i + 1) index

/-- Lines 103-139, entered with the cursor at `index`.  Yields whether the
format was set to `FORMAT_PK_OFFS_ALT`, and the value of `index` afterwards. -/
def matchOffsAlt (data : List Byte) (packFileSize : Int) (index : Nat) : Run (Bool × Nat) := do
  let (fileCount, index) ← getIntFromBytes data index
  if toInt32 (fileCount * 4 + 5) < packFileSize ∧ fileCount > 0 then
    let (matchFound, index, fileOffsets) ←
      offsAltLoop data packFileSize fileCount fileCount.toNat index []
    let (matchFound, index) :=
      if matchFound then
        offsAltSizesLoop packFileSize fileCount fileOffsets (fileCount - 1).toNat 0 index
      else
        (false, index)
    let b ← byteAt data index
    if b = 0x00 ∧ matchFound then
      pure (true, index)
    else
      pure (false, index)
  else
    pure (false, index)

/-! ### Graphics format (lines 141-153) -/

/-- The signature `gfxFileSig` of line 143. -/
def gfxFileSig : List Byte := [0xDF, 0x03, 0x01, 0x01, 0x01, 0x01]

/-- The `for` loop of lines 144-149 with `n` iterations left and loop variable
`i`.  Yields `matchFound`. -/
def gfxLoop (data : List Byte) : Nat → Nat → Run Bool
  | 0, _ => pure true
  | n + 1, i => do
    let b ← byteAt data i
    if b ≠ gfxFileSig.getD i 0 then
      pure false
    else
      gfxLoop data n (i + 1)

/-- Lines 141-153.  Yields whether the format was set to `FORMAT_FILE_GFX`. -/
def matchGfx (data : List Byte) : Run Bool := gfxLoop data 6 0

/-! ### Minimal asset pack format and text pack (lines 155-183) -/

/-- The variables of the `while` loop of lines 161-172. -/
structure MinState where
  matchFound : Bool
  index : Nat
  fileCount : Nat
  packFileOffsets : List Nat
  packFileSizes : List Int
  deriving DecidableEq, Repr

/-- One execution of the body of the `while` loop (lines 162-171). -/
def minBody (data : List Byte) (packFileSize : Int) (s : MinState) : Run MinState := do
  let (fileSize, index) ← getShortFromBytes data s.index
  if fileSize < 0 ∨ fileSize ≥ packFileSize ∨ (index : Int) + fileSize > packFileSize then
    pure { s with index := 0, matchFound := false }
  else
    pure { s with
      index := index + fileSize.toNat
      fileCount := s.fileCount + 1
      packFileOffsets := s.packFileOffsets ++ [index]
      packFileSizes := s.packFileSizes ++ [fileSize] }

/-- The `while` loop of lines 161-172, unrolled at most `fuel` times.  Every
completed iteration advances `index` by at least 2, so `fuel = data.length`
iterations are never exhausted (`minLoop_fuel`). -/
def minLoop (data : List Byte) (packFileSize : Int) : Nat → MinState → Run MinState
  | 0, s => pure s
  | fuel + 1, s =>
    if (s.index : Int) < packFileSize then do
      let s ← minBody data packFileSize s
      if s.matchFound then
        minLoop data packFileSize fuel s
      else
        pure s
    else
      pure s

/-- The variables of the `while` loop as initialised in lines 156-160. -/
def minInit : MinState :=
  { matchFound := true, index := 0, fileCount := 0, packFileOffsets := [], packFileSizes := [] }

/-- Lines 155-183: the format the constructor ends with once the first four
checks have failed. -/
def matchMin (data : List Byte) (packFileSize : Int) : Run Format := do
  let s ← minLoop data packFileSize data.length minInit
  if s.matchFound ∧ s.index > 0 ∧ (s.index : Int) = packFileSize then
    if s.fileCount = 2 then
      let stringCountInd := s.packFileOffsets.getD 1 0
      let (stringCount, _) ← getShortFromBytes data stringCountInd
      if stringCount * 2 = s.packFileSizes.getD 1 0 - 2 then
        pure FORMAT_FILE_TXT_PK
      else
        pure FORMAT_PK_MIN
    else
      pure FORMAT_PK_MIN
  else
    pure FORMAT_FILE_GENERIC

/-! ### The constructor -/

/-- The value of `format` when the constructor returns (lines 42-184). -/
def classify (data : List Byte) : Run Format :=
  let packFileSize : Int := data.length
  if packFileSize < 3 then
    pure FORMAT_FILE_GENERIC
  else do
    let (found, index) ← matchOffsSize data packFileSize
    if found then
      pure FORMAT_PK_OFFS_SIZE
    else
      let (found, index) ← matchOffs data packFileSize index
      if found then
        pure FORMAT_PK_OFFS
      else
        let (found, _) ← matchOffsAlt data packFileSize index
        if found then
          pure FORMAT_PK_OFFS_ALT
        else
          let found ← matchGfx data
          if found then
            pure FORMAT_FILE_GFX
          else
            matchMin data packFileSize

/-- The value of `format` when the constructor returns (lines 42-184), for a vector
of `size` elements stored at the start of the memory `mem`: the statements of
`classify` with `packFileSize = size`, an access at `i >= size` reading the byte
that follows the vector in `mem`.  `classifyMem data.length data` is `classify data`.
The memory holds at least `size` bytes, so the fuel `mem.length` of the cascade
covers its at most `size / 2` iterations. -/
def classifyMem (size : Nat) (mem : List Byte) : Run Format :=
  let packFileSize : Int := size
  if packFileSize < 3 then
    pure FORMAT_FILE_GENERIC
  else do
    let (found, index) ← matchOffsSize mem packFileSize
    if found then
      pure FORMAT_PK_OFFS_SIZE
    else
      let (found, index) ← matchOffs mem packFileSize index
      if found then
        pure FORMAT_PK_OFFS
      else
        let (found, _) ← matchOffsAlt mem packFileSize index
        if found then
          pure FORMAT_PK_OFFS_ALT
        else
          let found ← matchGfx mem
          if found then
            pure FORMAT_FILE_GFX
          else
            matchMin mem packFileSize

/-- The object built by the constructor. -/
structure GenericAssetFile where
  data : List Byte
  name : String
  path : String
  format : Format
  deriving DecidableEq, Repr

/-- `GenericAssetFile::GenericAssetFile(fData, fName, fPath)` (lines 38-184). -/
def GenericAssetFile.create (fData : List Byte) (fName fPath : String) : Run GenericAssetFile := do
  let format ← classify fData
  pure { data := fData, name := fName, path := fPath, format := format }

/-! ### Reference values used in the statements -/

/-- The value of byte `i` of the buffer (0 outside the buffer). -/
def byteVal (bytes : List Byte) (i : Nat) : Nat := (bytes.getD i 0).val

/-- The unsigned 16-bit little-endian value at byte `c`. -/
def uint16At (bytes : List Byte) (c : Nat) : Nat :=
  byteVal bytes c + 2 ^ 8 * byteVal bytes (c + 1)

/-- The unsigned 32-bit little-endian value at byte `c`. -/
def uint32At (bytes : List Byte) (c : Nat) : Nat :=
  byteVal bytes c + 2 ^ 8 * byteVal bytes (c + 1) + 2 ^ 16 * byteVal bytes (c + 2)
    + 2 ^ 24 * byteVal bytes (c + 3)

/-- The signed 32-bit little-endian value at byte `c`. -/
@[irreducible] def int32At (bytes : List Byte) (c : Nat) : Int := toInt32 (uint32At bytes c)

/-- The signed 16-bit little-endian value at byte `c`. -/
@[irreducible] def int16At (bytes : List Byte) (c : Nat) : Int := toInt16 (uint16At bytes c)

/-- Entry `i` of an offset+size table starting at byte `start` passes the check of line 58. -/
def offsSizeEntryOk (data : List Byte) (packFileSize fileCount : Int) (start i : Nat) : Prop :=
  int32At data (start + 8 * i) ≤ packFileSize - (fileCount * 8 + 1)
    ∧ int32At data (start + 8 * i + 4) ≤ packFileSize - (fileCount * 8 + 1)

/-- The count byte and every entry of the offset+size table pass the checks of
lines 52 and 58: with `n` the first byte, `n > 0`, `n*8 + 1 < size`, and each of
the `n` entries has offset (at byte `1 + 8i`) and size (at byte `5 + 8i`) at most
`size - (n*8 + 1)`. -/
def offsSizeAccepts (data : List Byte) : Prop :=
  0 < byteVal data 0 ∧ byteVal data 0 * 8 + 1 < data.length ∧
    ∀ i, i < byteVal data 0 →
      int32At data (1 + 8 * i) ≤ (data.length : Int) - ((byteVal data 0 * 8 + 1 : Nat) : Int)
        ∧ int32At data (5 + 8 * i) ≤ (data.length : Int) - ((byteVal data 0 * 8 + 1 : Nat) : Int)

/-- A 1039-byte buffer that starts with the graphics signature `DF 03 01 01 01 01`
and continues the pattern `01 01 01 80`: read from byte 1, it is an offset table
of 259 equal (negative) offsets. -/
def gfxClash : List Byte :=
  [0xDF, 0x03, 0x01] ++ (List.replicate 259 [0x01, 0x01, 0x01, 0x80]).flatten

/-- None of the first four checks accepts: each of them runs to completion and
fails (lines 48-153). -/
def rejectedByFirstFour (data : List Byte) : Prop :=
  ∃ i1 i2 i3 : Nat,
    (matchOffsSize data data.length).val = some (false, i1)
    ∧ (matchOffs data data.length i1).val = some (false, i2)
    ∧ (matchOffsAlt data data.length i2).val = some (false, i3)
    ∧ (matchGfx data).val = some false

/-- The number of times `minLoop` executes the body of the `while` loop (an
execution that aborts the match, or that reads outside the buffer, counts too). -/
def minLoopIters (data : List Byte) (packFileSize : Int) : Nat → MinState → Nat
  | 0, _ => 0
  | fuel + 1, s =>
    if (s.index : Int) < packFileSize then
      match (minBody data packFileSize s).val with
      | some t => if t.matchFound then 1 + minLoopIters data packFileSize fuel t else 1
      | none => 1
    else
      0

/-- The run produces a value and every element it accesses lies below `L`. -/
def Run.InBounds {α : Type} (L : Nat) (m : Run α) : Prop :=
  (∃ a, m.val = some a) ∧ ∀ i, i ∈ m.reads → i < L

/-- The sub-entry table recorded so far tiles the bytes before the cursor: the two
lists have `fileCount` entries, every size is between 0 and 32767 and below `L`,
each offset is the previous offset plus the previous size plus 2, the first
offset is 2, and the last offset plus the last size is the cursor. -/
def MinState.Tiled (L : Nat) (s : MinState) : Prop :=
  s.packFileOffsets.length = s.fileCount ∧ s.packFileSizes.length = s.fileCount
  ∧ (∀ j, j < s.fileCount →
      0 ≤ s.packFileSizes.getD j 0 ∧ s.packFileSizes.getD j 0 ≤ 32767
        ∧ s.packFileSizes.getD j 0 < (L : Int))
  ∧ (∀ j, j + 1 < s.fileCount →
      (s.packFileOffsets.getD (j + 1) 0 : Int)
        = (s.packFileOffsets.getD j 0 : Int) + s.packFileSizes.getD j 0 + 2)
  ∧ (s.fileCount = 0 → s.index = 0)
  ∧ (0 < s.fileCount →
      s.packFileOffsets.getD 0 0 = 2
      ∧ (s.packFileOffsets.getD (s.fileCount - 1) 0 : Int)
          + s.packFileSizes.getD (s.fileCount - 1) 0 = (s.index : Int))

/-! ## Theorems -/

/-! ### Runs and the two readers -/


@[simp] theorem Run.val_mk {α : Type} (r : List Nat) (v : Option α) : (Run.mk r v).val = v := rfl

@[simp] theorem Run.reads_mk {α : Type} (r : List Nat) (v : Option α) :
    (Run.mk r v).reads = r := rfl

@[simp] theorem Run.val_pure {α : Type} (a : α) : (pure a : Run α).val = some a := rfl

@[simp] theorem Run.reads_pure {α : Type} (a : α) : (pure a : Run α).reads = [] := rfl

theorem Run.bind_def {α β : Type} (m : Run α) (f : α → Run β) :
    m >>= f = Run.andThen m f := rfl

theorem Run.val_bind {α β : Type} (m : Run α) (f : α → Run β) :
    (m >>= f).val = m.val.bind (fun a => (f a).val) := by
  rw [Run.bind_def, Run.andThen]
  cases h : m.val <;> simp

theorem Run.reads_bind_some {α β : Type} (m : Run α) (f : α → Run β) (a : α)
    (h : m.val = some a) : (m >>= f).reads = m.reads ++ (f a).reads := by
  rw [Run.bind_def, Run.andThen]
  simp [h]

theorem Run.reads_bind_none {α β : Type} (m : Run α) (f : α → Run β)
    (h : m.val = none) : (m >>= f).reads = m.reads := by
  rw [Run.bind_def, Run.andThen]
  simp [h]

theorem byte_and (b : Byte) : b.val &&& 0xFF = b.val := by
  have h := Nat.and_pow_two_sub_one_eq_mod b.val 8
  have hb := b.isLt
  simp at h
  rw [h]; omega

@[simp] theorem byteAt_reads (bytes : List Byte) (i : Nat) : (byteAt bytes i).reads = [i] := rfl

theorem byteAt_val (bytes : List Byte) (i : Nat) (h : i < bytes.length) :
    (byteAt bytes i).val = some (bytes.getD i 0) := by
  simp [byteAt, List.getD_eq_getElem _ _ h, List.getElem?_eq_getElem h]

theorem byteAt_val_none (bytes : List Byte) (i : Nat) (h : bytes.length ≤ i) :
    (byteAt bytes i).val = none := by
  simp [byteAt, List.getElem?_eq_none h]

theorem getIntFromBytes_val (bytes : List Byte) (c : Nat) (h : c + 4 ≤ bytes.length) :
    (getIntFromBytes bytes c).val = some (int32At bytes c, c + 4) := by
  unfold getIntFromBytes
  simp only [Run.val_bind, byteAt_val bytes c (by omega), byteAt_val bytes (c + 1) (by omega),
    byteAt_val bytes (c + 2) (by omega), byteAt_val bytes (c + 3) (by omega), Option.some_bind,
    Run.val_pure]
  simp [byte_and, Nat.shiftLeft_eq, uint32At, byteVal, int32At, Nat.mul_comm]

theorem getShortFromBytes_val (bytes : List Byte) (c : Nat) (h : c + 2 ≤ bytes.length) :
    (getShortFromBytes bytes c).val = some (int16At bytes c, c + 2) := by
  unfold getShortFromBytes
  simp only [Run.val_bind, byteAt_val bytes c (by omega), byteAt_val bytes (c + 1) (by omega),
    Option.some_bind, Run.val_pure]
  simp [byte_and, Nat.shiftLeft_eq, uint16At, byteVal, int16At, Nat.mul_comm]

theorem getIntFromBytes_val_none (bytes : List Byte) (c : Nat) (h : bytes.length < c + 4) :
    (getIntFromBytes bytes c).val = none := by
  unfold getIntFromBytes
  simp only [Run.val_bind]
  by_cases h0 : c < bytes.length
  · rw [byteAt_val bytes c h0]
    by_cases h1 : c + 1 < bytes.length
    · rw [byteAt_val bytes (c + 1) h1]
      by_cases h2 : c + 2 < bytes.length
      · rw [byteAt_val bytes (c + 2) h2, byteAt_val_none bytes (c + 3) (by omega)]
        rfl
      · rw [byteAt_val_none bytes (c + 2) (by omega)]
        rfl
    · rw [byteAt_val_none bytes (c + 1) (by omega)]
      rfl
  · rw [byteAt_val_none bytes c (by omega)]
    rfl

theorem getShortFromBytes_val_none (bytes : List Byte) (c : Nat) (h : bytes.length < c + 2) :
    (getShortFromBytes bytes c).val = none := by
  unfold getShortFromBytes
  simp only [Run.val_bind]
  by_cases h0 : c < bytes.length
  · rw [byteAt_val bytes c h0, byteAt_val_none bytes (c + 1) (by omega)]
    rfl
  · rw [byteAt_val_none bytes c (by omega)]
    rfl

/-! ### The offset+size format -/

theorem offsSizeLoop_val (data : List Byte) (P fc : Int) (n index : Nat)
    (h : index + 8 * n ≤ data.length) :
    ((offsSizeLoop data P fc n index).val = some (true, index + 8 * n)
        ∧ ∀ i, i < n → offsSizeEntryOk data P fc index i)
      ∨ ((offsSizeLoop data P fc n index).val = some (false, 0)
        ∧ ∃ i, i < n ∧ ¬ offsSizeEntryOk data P fc index i) := by
  induction n generalizing index with
  | zero => left; simp [offsSizeLoop]
  | succ n ih =>
    simp only [offsSizeLoop, Run.val_bind, getIntFromBytes_val data index (by omega),
      getIntFromBytes_val data (index + 4) (by omega), Option.some_bind]
    by_cases hc : int32At data index > P - (fc * 8 + 1) ∨ int32At data (index + 4) > P - (fc * 8 + 1)
    · right
      rw [if_pos hc]
      refine ⟨rfl, 0, by omega, ?_⟩
      simp only [offsSizeEntryOk, Nat.mul_zero, Nat.add_zero]
      omega
    · rw [if_neg hc]
      rcases ih (index + 4 + 4) (by omega) with ⟨hv, hall⟩ | ⟨hv, i, hi, hbad⟩
      · left
        refine ⟨?_, ?_⟩
        · simp only [hv]; congr 2; omega
        · intro i hi
          cases i with
          | zero => simp only [offsSizeEntryOk, Nat.mul_zero, Nat.add_zero]; omega
          | succ i =>
            have := hall i (by omega)
            simp only [offsSizeEntryOk] at this ⊢
            rw [show index + 8 * (i + 1) = index + 4 + 4 + 8 * i by omega]
            exact this
      · right
        refine ⟨hv, i + 1, by omega, ?_⟩
        simp only [offsSizeEntryOk] at hbad ⊢
        rw [show index + 8 * (i + 1) = index + 4 + 4 + 8 * i by omega]
        exact hbad

/-- The offset+size check (lines 48-68) on a non-empty buffer: it accepts exactly when
the count byte and all table entries pass, and otherwise leaves the cursor at 0
(an entry failed) or at 1 (the count failed). -/
theorem matchOffsSize_val (data : List Byte) (h : 1 ≤ data.length) :
    (offsSizeAccepts data
        ∧ (matchOffsSize data data.length).val = some (true, 1 + 8 * byteVal data 0))
      ∨ (¬ offsSizeAccepts data
        ∧ ((matchOffsSize data data.length).val = some (false, 0)
          ∨ (matchOffsSize data data.length).val = some (false, 1))) := by
  unfold matchOffsSize
  simp only [Run.val_bind, byteAt_val data 0 (by omega), Option.some_bind]
  have hb : ((data.getD 0 0).val : Int) = (byteVal data 0 : Nat) := rfl
  simp only [hb, Nat.zero_add, Int.toNat_ofNat]
  by_cases hc : ((byteVal data 0 : Nat) : Int) * 8 + 1 < (data.length : Int)
      ∧ ((byteVal data 0 : Nat) : Int) > 0
  · rw [if_pos hc]
    rcases offsSizeLoop_val data data.length (byteVal data 0 : Nat) (byteVal data 0) 1 (by omega)
      with ⟨hv, hall⟩ | ⟨hv, i, hi, hbad⟩
    · left
      refine ⟨⟨by omega, by omega, ?_⟩, hv⟩
      intro i hi
      have := hall i hi
      simp only [offsSizeEntryOk] at this
      rw [show 5 + 8 * i = 1 + 8 * i + 4 by omega]
      constructor
      · have := this.1; push_cast; omega
      · have := this.2; push_cast; omega
    · right
      refine ⟨?_, Or.inl hv⟩
      rintro ⟨_, _, hall⟩
      apply hbad
      have := hall i hi
      simp only [offsSizeEntryOk]
      rw [show 5 + 8 * i = 1 + 8 * i + 4 by omega] at this
      constructor
      · have := this.1; push_cast at this; omega
      · have := this.2; push_cast at this; omega
  · rw [if_neg hc]
    right
    refine ⟨?_, Or.inr rfl⟩
    rintro ⟨h1, h2, _⟩
    apply hc
    omega

/-! ### The chain of checks -/

/-- The classification of a buffer of at least three bytes, as the chain of the five checks. -/
theorem classify_val (data : List Byte) (h : 3 ≤ data.length) :
    (classify data).val =
      (matchOffsSize data data.length).val.bind fun r1 =>
        if r1.1 then some FORMAT_PK_OFFS_SIZE else
        (matchOffs data data.length r1.2).val.bind fun r2 =>
          if r2.1 then some FORMAT_PK_OFFS else
          (matchOffsAlt data data.length r2.2).val.bind fun r3 =>
            if r3.1 then some FORMAT_PK_OFFS_ALT else
            (matchGfx data).val.bind fun r4 =>
              if r4 then some FORMAT_FILE_GFX else (matchMin data data.length).val := by
  have h3 : ¬ ((data.length : Int) < 3) := by omega
  unfold classify
  simp only [h3, if_false, Run.val_bind]
  congr 1; funext r1
  rcases r1 with ⟨b1, i1⟩
  cases b1
  · simp only [Bool.false_eq_true, if_false, Run.val_bind]
    congr 1; funext r2
    rcases r2 with ⟨b2, i2⟩
    cases b2
    · simp only [Bool.false_eq_true, if_false, Run.val_bind]
      congr 1; funext r3
      rcases r3 with ⟨b3, i3⟩
      cases b3
      · simp only [Bool.false_eq_true, if_false, Run.val_bind]
        congr 1; funext r4
        cases r4 <;> simp
      · simp
    · simp
  · simp

theorem classify_short (data : List Byte) (h : data.length < 3) :
    classify data = Run.mk [] (some FORMAT_FILE_GENERIC) := by
  have h3 : ((data.length : Int) < 3) := by omega
  unfold classify
  simp only [h3, if_true]
  rfl

/-- The last check only ever produces one of three formats. -/
theorem matchMin_val (data : List Byte) (P : Int) (f : Format)
    (h : (matchMin data P).val = some f) :
    f = FORMAT_FILE_TXT_PK ∨ f = FORMAT_PK_MIN ∨ f = FORMAT_FILE_GENERIC := by
  unfold matchMin at h
  rw [Run.val_bind] at h
  cases hs : (minLoop data P data.length minInit).val with
  | none => rw [hs] at h; simp at h
  | some s =>
    rw [hs, Option.some_bind] at h
    split at h
    · split at h
      · rw [Run.val_bind] at h
        cases hk : (getShortFromBytes data (s.packFileOffsets.getD 1 0)).val with
        | none => rw [hk] at h; simp at h
        | some k =>
          rw [hk, Option.some_bind] at h
          rcases k with ⟨k, ik⟩
          by_cases hc : k * 2 = s.packFileSizes.getD 1 0 - 2
          · simp only [hc, if_true, Run.val_pure, Option.some.injEq] at h
            exact Or.inl h.symm
          · simp only [hc, if_false, Run.val_pure, Option.some.injEq] at h
            exact Or.inr (Or.inl h.symm)
      · simp at h; simp [← h]
    · simp at h; simp [← h]

/-- How a classification arises: which check produced it. -/
theorem classify_inv (data : List Byte) (f : Format) (h : (classify data).val = some f) :
    (data.length < 3 ∧ f = FORMAT_FILE_GENERIC)
    ∨ (3 ≤ data.length ∧ ∃ i1, (matchOffsSize data data.length).val = some (true, i1)
        ∧ f = FORMAT_PK_OFFS_SIZE)
    ∨ (3 ≤ data.length ∧ ∃ i1 i2, (matchOffsSize data data.length).val = some (false, i1)
        ∧ (matchOffs data data.length i1).val = some (true, i2) ∧ f = FORMAT_PK_OFFS)
    ∨ (3 ≤ data.length ∧ ∃ i1 i2 i3, (matchOffsSize data data.length).val = some (false, i1)
        ∧ (matchOffs data data.length i1).val = some (false, i2)
        ∧ (matchOffsAlt data data.length i2).val = some (true, i3) ∧ f = FORMAT_PK_OFFS_ALT)
    ∨ (3 ≤ data.length ∧ (matchGfx data).val = some true ∧ f = FORMAT_FILE_GFX)
    ∨ (3 ≤ data.length ∧ (matchGfx data).val = some false
        ∧ (matchMin data data.length).val = some f) := by
  by_cases hlen : data.length < 3
  · left
    rw [classify_short data hlen] at h
    simp at h
    exact ⟨hlen, h.symm⟩
  · right
    have h3 : 3 ≤ data.length := by omega
    rw [classify_val data h3] at h
    cases h1 : (matchOffsSize data data.length).val with
    | none => rw [h1] at h; simp at h
    | some r1 =>
      rcases r1 with ⟨b1, i1⟩
      rw [h1, Option.some_bind] at h
      cases b1
      · simp only [Bool.false_eq_true, if_false] at h
        cases h2 : (matchOffs data data.length i1).val with
        | none => rw [h2] at h; simp at h
        | some r2 =>
          rcases r2 with ⟨b2, i2⟩
          rw [h2, Option.some_bind] at h
          cases b2
          · simp only [Bool.false_eq_true, if_false] at h
            cases h3' : (matchOffsAlt data data.length i2).val with
            | none => rw [h3'] at h; simp at h
            | some r3 =>
              rcases r3 with ⟨b3, i3⟩
              rw [h3', Option.some_bind] at h
              cases b3
              · simp only [Bool.false_eq_true, if_false] at h
                cases h4 : (matchGfx data).val with
                | none => rw [h4] at h; simp at h
                | some r4 =>
                  rw [h4, Option.some_bind] at h
                  cases r4
                  · simp only [Bool.false_eq_true, if_false] at h
                    exact Or.inr (Or.inr (Or.inr (Or.inr ⟨h3, rfl, h⟩)))
                  · simp only [if_true, Option.some.injEq] at h
                    exact Or.inr (Or.inr (Or.inr (Or.inl ⟨h3, rfl, h.symm⟩)))
              · simp only [if_true, Option.some.injEq] at h
                exact Or.inr (Or.inr (Or.inl ⟨h3, i1, i2, i3, rfl, h2, h3', h.symm⟩))
          · simp only [if_true, Option.some.injEq] at h
            exact Or.inr (Or.inl ⟨h3, i1, i2, rfl, h2, h.symm⟩)
      · simp only [if_true, Option.some.injEq] at h
        exact Or.inl ⟨h3, i1, rfl, h.symm⟩

/-! ### The readers, short buffers and the offset+size format -/

theorem toInt32_natCast (u : Nat) (hu : u < 4294967296) :
    toInt32 (u : Int) = if u < 2147483648 then (u : Int) else (u : Int) - 4294967296 := by
  unfold toInt32
  have h1 : ((u : Int) % 4294967296).toNat = u := by omega
  simp only [h1]

theorem toInt16_natCast (u : Nat) (hu : u < 65536) :
    toInt16 (u : Int) = if u < 32768 then (u : Int) else (u : Int) - 65536 := by
  unfold toInt16
  have h1 : ((u : Int) % 65536).toNat = u := by omega
  simp only [h1]

theorem byteVal_lt (bytes : List Byte) (i : Nat) : byteVal bytes i < 256 :=
  (bytes.getD i 0).isLt

theorem byteVal_eq (bytes : List Byte) (i : Nat) (h : i < bytes.length) :
    byteVal bytes i = bytes[i].val := by
  unfold byteVal
  rw [List.getD_eq_getElem _ _ h]

theorem getIntFromBytes_reads (bytes : List Byte) (c : Nat) (h : c + 4 ≤ bytes.length) :
    (getIntFromBytes bytes c).reads = [c, c + 1, c + 2, c + 3] := by
  unfold getIntFromBytes
  rw [Run.reads_bind_some _ _ _ (byteAt_val bytes c (by omega)),
    Run.reads_bind_some _ _ _ (byteAt_val bytes (c + 1) (by omega)),
    Run.reads_bind_some _ _ _ (byteAt_val bytes (c + 2) (by omega)),
    Run.reads_bind_some _ _ _ (byteAt_val bytes (c + 3) (by omega))]
  simp

theorem getShortFromBytes_reads (bytes : List Byte) (c : Nat) (h : c + 2 ≤ bytes.length) :
    (getShortFromBytes bytes c).reads = [c, c + 1] := by
  unfold getShortFromBytes
  rw [Run.reads_bind_some _ _ _ (byteAt_val bytes c (by omega)),
    Run.reads_bind_some _ _ _ (byteAt_val bytes (c + 1) (by omega))]
  simp

/-- C10: for a cursor `c` with `c + 4 ≤ length`, `getIntFromBytes` accesses bytes
`c .. c+3`, returns `b[c] + b[c+1]*2^8 + b[c+2]*2^16 + b[c+3]*2^24` (written with the
powers `256`, `65536`, `16777216`) reduced to a
signed 32-bit two's-complement value (negative exactly when `b[c+3] ≥ 0x80`), and
leaves the cursor at `c + 4`. -/
theorem getIntFromBytes_signed_le (bytes : List Byte) (c : Nat) (h : c + 4 ≤ bytes.length) :
    ∃ (v : Int) (u : Nat),
      getIntFromBytes bytes c = Run.mk [c, c + 1, c + 2, c + 3] (some (v, c + 4))
      ∧ u = bytes[c].val + 256 * bytes[c + 1].val + 65536 * bytes[c + 2].val
            + 16777216 * bytes[c + 3].val
      ∧ v = (if u < 2147483648 then (u : Int) else (u : Int) - 4294967296)
      ∧ (v < 0 ↔ 0x80 ≤ bytes[c + 3].val) := by
  have h0 := byteVal_lt bytes c
  have h1 := byteVal_lt bytes (c + 1)
  have h2 := byteVal_lt bytes (c + 2)
  have h3 := byteVal_lt bytes (c + 3)
  have hu : uint32At bytes c < 4294967296 := by
    unfold uint32At; omega
  refine ⟨int32At bytes c, uint32At bytes c, ?_, ?_, ?_, ?_⟩
  · have hv := getIntFromBytes_val bytes c h
    have hr := getIntFromBytes_reads bytes c h
    cases hg : getIntFromBytes bytes c with
    | mk r v =>
      rw [hg] at hv hr
      simp only [Run.val_mk, Run.reads_mk] at hv hr
      rw [hv, hr]
  · have e0 := byteVal_eq bytes c (by omega)
    have e1 := byteVal_eq bytes (c + 1) (by omega)
    have e2 := byteVal_eq bytes (c + 2) (by omega)
    have e3 := byteVal_eq bytes (c + 3) (by omega)
    unfold uint32At
    omega
  · unfold int32At
    rewrite [toInt32_natCast _ hu]
    rfl
  · have e3 := byteVal_eq bytes (c + 3) (by omega)
    unfold int32At
    rewrite [toInt32_natCast _ hu]
    unfold uint32At
    split <;> omega

theorem getIntFromBytes_signed_le_witness :
    0 + 4 ≤ ([0x78, 0x56, 0x34, 0x92] : List Byte).length
    ∧ ∃ (v : Int) (u : Nat),
      getIntFromBytes [0x78, 0x56, 0x34, 0x92] 0 = Run.mk [0, 0 + 1, 0 + 2, 0 + 3] (some (v, 0 + 4))
      ∧ u = ([0x78, 0x56, 0x34, 0x92] : List Byte)[0].val
            + 256 * ([0x78, 0x56, 0x34, 0x92] : List Byte)[0 + 1].val
            + 65536 * ([0x78, 0x56, 0x34, 0x92] : List Byte)[0 + 2].val
            + 16777216 * ([0x78, 0x56, 0x34, 0x92] : List Byte)[0 + 3].val
      ∧ v = (if u < 2147483648 then (u : Int) else (u : Int) - 4294967296)
      ∧ (v < 0 ↔ 0x80 ≤ ([0x78, 0x56, 0x34, 0x92] : List Byte)[0 + 3].val) :=
  ⟨by decide, getIntFromBytes_signed_le [0x78, 0x56, 0x34, 0x92] 0 (by decide)⟩

/-- C9: a buffer of length 0, 1 or 2 is classified `FORMAT_FILE_GENERIC` (the spec's
`GENERIC`) whatever its bytes, and no element of the buffer is accessed. -/
theorem classify_short_generic (data : List Byte) (fName fPath : String)
    (h : data.length < 3) :
    classify data = Run.mk [] (some FORMAT_FILE_GENERIC)
    ∧ GenericAssetFile.create data fName fPath
        = Run.mk [] (some { data := data, name := fName, path := fPath,
                            format := FORMAT_FILE_GENERIC }) := by
  have hc := classify_short data h
  refine ⟨hc, ?_⟩
  unfold GenericAssetFile.create
  rw [hc]
  rfl

theorem classify_short_generic_witness :
    classify [0xDF, 0x03] = Run.mk [] (some FORMAT_FILE_GENERIC)
    ∧ GenericAssetFile.create [0xDF, 0x03] "a.bin" "/"
        = Run.mk [] (some { data := [0xDF, 0x03], name := "a.bin", path := "/",
                            format := FORMAT_FILE_GENERIC }) :=
  classify_short_generic [0xDF, 0x03] "a.bin" "/" (by decide)

/-- C1: the classification is `FORMAT_PK_OFFS_SIZE` (the spec's `PACK_OFFSET_SIZE`)
if and only if, with `n` the first byte, `n > 0`, `n*8 + 1 < totalLength`, and each
of the `n` entries has its signed 32-bit offset (at byte `1 + 8i`) and size (at
byte `5 + 8i`) at most `totalLength - (n*8 + 1)`.  Nothing else is required, so a
buffer passing these checks is `FORMAT_PK_OFFS_SIZE` whatever the later checks
would say. -/
theorem classify_offs_size_iff (data : List Byte) :
    (classify data).val = some FORMAT_PK_OFFS_SIZE ↔
      (0 < byteVal data 0 ∧ byteVal data 0 * 8 + 1 < data.length ∧
        ∀ i, i < byteVal data 0 →
          int32At data (1 + 8 * i)
              ≤ (data.length : Int) - ((byteVal data 0 * 8 + 1 : Nat) : Int)
            ∧ int32At data (5 + 8 * i)
              ≤ (data.length : Int) - ((byteVal data 0 * 8 + 1 : Nat) : Int)) := by
  show _ ↔ offsSizeAccepts data
  constructor
  · intro h
    rcases classify_inv data _ h with ⟨_, hf⟩ | ⟨h3, i1, h1, _⟩ | ⟨_, _, _, _, _, hf⟩
      | ⟨_, _, _, _, _, _, _, hf⟩ | ⟨_, _, hf⟩ | ⟨_, _, hm⟩
    · cases hf
    · rcases matchOffsSize_val data (by omega) with ⟨ha, _⟩ | ⟨_, hv | hv⟩
      · exact ha
      · rw [hv] at h1; simp at h1
      · rw [hv] at h1; simp at h1
    · cases hf
    · cases hf
    · cases hf
    · rcases matchMin_val data _ _ hm with hf | hf | hf <;> cases hf
  · intro ha
    have h3 : 3 ≤ data.length := by
      have := ha.1; have := ha.2.1; omega
    rcases matchOffsSize_val data (by omega) with ⟨_, hv⟩ | ⟨hn, _⟩
    · rw [classify_val data h3, hv]
      rfl
    · exact absurd ha hn

/-! ### The graphics signature -/

theorem gfxLoop_true (data : List Byte) (n i : Nat) (h : (gfxLoop data n i).val = some true) :
    ∀ j, j < n → data[i + j]? = some (gfxFileSig.getD (i + j) 0) := by
  induction n generalizing i with
  | zero => intro j hj; omega
  | succ n ih =>
    rw [gfxLoop, Run.val_bind] at h
    cases hb : (byteAt data i).val with
    | none => rw [hb] at h; simp at h
    | some b =>
      rw [hb, Option.some_bind] at h
      by_cases hne : b ≠ gfxFileSig.getD i 0
      · rw [if_pos hne] at h; simp at h
      · rw [if_neg hne] at h
        have hbe : b = gfxFileSig.getD i 0 := by
          by_cases hh : b = gfxFileSig.getD i 0
          · exact hh
          · exact absurd hh hne
        intro j hj
        cases j with
        | zero =>
          have : data[i]? = some b := hb
          rw [Nat.add_zero, this, hbe]
        | succ j =>
          have := ih (i + 1) h j (by omega)
          rw [show i + (j + 1) = i + 1 + j by omega]
          exact this

theorem gfxLoop_of_sig (data : List Byte) (n i : Nat)
    (h : ∀ j, j < n → data[i + j]? = some (gfxFileSig.getD (i + j) 0)) :
    (gfxLoop data n i).val = some true := by
  induction n generalizing i with
  | zero => rfl
  | succ n ih =>
    rw [gfxLoop, Run.val_bind]
    have hb : (byteAt data i).val = some (gfxFileSig.getD i 0) := by
      have := h 0 (by omega)
      rw [Nat.add_zero] at this
      exact this
    rw [hb, Option.some_bind]
    have hne : ¬ (gfxFileSig.getD i 0 ≠ gfxFileSig.getD i 0) := fun hh => hh rfl
    rw [if_neg hne]
    apply ih
    intro j hj
    have := h (j + 1) (by omega)
    rw [show i + (j + 1) = i + 1 + j by omega] at this
    exact this

/-- The signature check accepts exactly the buffers that start with the signature. -/
theorem matchGfx_true_iff (data : List Byte) :
    (matchGfx data).val = some true ↔ data.take 6 = gfxFileSig := by
  unfold matchGfx
  constructor
  · intro h
    have hs := gfxLoop_true data 6 0 h
    apply List.ext_getElem?
    intro j
    by_cases hj : j < 6
    · rw [List.getElem?_take_of_lt hj]
      have := hs j hj
      rw [Nat.zero_add] at this
      rw [this]
      have h6 : j = 0 ∨ j = 1 ∨ j = 2 ∨ j = 3 ∨ j = 4 ∨ j = 5 := by omega
      rcases h6 with rfl | rfl | rfl | rfl | rfl | rfl <;> rfl
    · have h1 : (List.take 6 data).length ≤ j := by
        rw [List.length_take]; omega
      rw [List.getElem?_eq_none h1, List.getElem?_eq_none (by simp [gfxFileSig]; omega)]
  · intro h
    apply gfxLoop_of_sig
    intro j hj
    rw [Nat.zero_add, ← List.getElem?_take_of_lt hj, h]
    have h6 : j = 0 ∨ j = 1 ∨ j = 2 ∨ j = 3 ∨ j = 4 ∨ j = 5 := by omega
    rcases h6 with rfl | rfl | rfl | rfl | rfl | rfl <;> rfl

theorem length_of_take_sig (data : List Byte) (h : data.take 6 = gfxFileSig) :
    6 ≤ data.length := by
  have h1 : (data.take 6).length = 6 := by rw [h]; rfl
  rw [List.length_take] at h1
  omega

/-- A run that completes inside the buffer with `FORMAT_FILE_GFX` has compared six
bytes of the buffer with the signature: the buffer has at least 6 bytes and its
first six bytes are `DF 03 01 01 01 01`. -/
theorem classify_gfx_only_signature (data : List Byte)
    (h : (classify data).val = some FORMAT_FILE_GFX) :
    6 ≤ data.length ∧ data.take 6 = [0xDF, 0x03, 0x01, 0x01, 0x01, 0x01] := by
  have hsig : data.take 6 = gfxFileSig := by
    rcases classify_inv data _ h with ⟨_, hf⟩ | ⟨_, _, _, hf⟩ | ⟨_, _, _, _, _, hf⟩
      | ⟨_, _, _, _, _, _, _, hf⟩ | ⟨_, hg, _⟩ | ⟨_, _, hm⟩
    · cases hf
    · cases hf
    · cases hf
    · cases hf
    · exact (matchGfx_true_iff data).1 hg
    · rcases matchMin_val data _ _ hm with hf | hf | hf <;> cases hf
  exact ⟨length_of_take_sig data hsig, hsig⟩

/-! ### The offset format -/

theorem getIntFromBytes_val_some (bytes : List Byte) (c i : Nat) (v : Int)
    (h : (getIntFromBytes bytes c).val = some (v, i)) :
    c + 4 ≤ bytes.length ∧ v = int32At bytes c ∧ i = c + 4 := by
  by_cases hb : c + 4 ≤ bytes.length
  · rw [getIntFromBytes_val bytes c hb] at h
    simp only [Option.some.injEq, Prod.mk.injEq] at h
    exact ⟨hb, h.1.symm, h.2.symm⟩
  · rw [getIntFromBytes_val_none bytes c (by omega)] at h
    simp at h

theorem getShortFromBytes_val_some (bytes : List Byte) (c i : Nat) (v : Int)
    (h : (getShortFromBytes bytes c).val = some (v, i)) :
    c + 2 ≤ bytes.length ∧ v = int16At bytes c ∧ i = c + 2 := by
  by_cases hb : c + 2 ≤ bytes.length
  · rw [getShortFromBytes_val bytes c hb] at h
    simp only [Option.some.injEq, Prod.mk.injEq] at h
    exact ⟨hb, h.1.symm, h.2.symm⟩
  · rw [getShortFromBytes_val_none bytes c (by omega)] at h
    simp at h

/-- The first loop of the offset check either fails with the cursor reset to 0 or
succeeds with the cursor behind the `n` offsets it read. -/
theorem offsLoop_shape (data : List Byte) (P fc : Int) (n index idx : Nat)
    (offs o : List Int) (mf : Bool)
    (h : (offsLoop data P fc n index offs).val = some (mf, idx, o)) :
    (mf = false ∧ idx = 0) ∨ (mf = true ∧ idx = index + 4 * n) := by
  induction n generalizing index offs with
  | zero =>
    simp only [offsLoop, Run.val_pure, Option.some.injEq, Prod.mk.injEq] at h
    right; exact ⟨h.1.symm, by omega⟩
  | succ n ih =>
    rw [offsLoop, Run.val_bind] at h
    cases hg : (getIntFromBytes data index).val with
    | none => rw [hg] at h; simp at h
    | some r =>
      rcases r with ⟨v, i⟩
      obtain ⟨_, _, rfl⟩ := getIntFromBytes_val_some data index i v hg
      rw [hg, Option.some_bind] at h
      simp only [] at h
      by_cases hc : v > P - (fc * 4 + 2)
      · rw [if_pos hc] at h
        simp only [Run.val_pure, Option.some.injEq, Prod.mk.injEq] at h
        left; exact ⟨h.1.symm, h.2.1.symm⟩
      · rw [if_neg hc] at h
        rcases ih (index + 4) (offs ++ [v]) h with h1 | h1
        · left; exact h1
        · right; exact ⟨h1.1, by omega⟩

theorem offsSizesLoop_shape (P fc : Int) (L : List Int) (n i index : Nat) :
    offsSizesLoop P fc L n i index = (false, 0)
      ∨ offsSizesLoop P fc L n i index = (true, index) := by
  induction n generalizing i with
  | zero => right; rfl
  | succ n ih =>
    rw [offsSizesLoop]
    split
    · left; rfl
    · exact ih (i + 1)

/-- Where the offset check leaves the cursor when it does not accept: at 0 (a table
entry failed) or behind the 16-bit count (the count failed). -/
theorem matchOffs_rejected_index (data : List Byte) (P : Int) (index i2 : Nat)
    (h : (matchOffs data P index).val = some (false, i2)) :
    i2 = 0 ∨ i2 = index + 2 := by
  rw [matchOffs, Run.val_bind] at h
  cases hg : (getShortFromBytes data index).val with
  | none => rw [hg] at h; simp at h
  | some r =>
    rcases r with ⟨fc, i⟩
    obtain ⟨_, _, rfl⟩ := getShortFromBytes_val_some data index i fc hg
    rw [hg, Option.some_bind] at h
    simp only [] at h
    by_cases hc : fc * 4 + 2 < P ∧ fc > 0
    · rw [if_pos hc, Run.val_bind] at h
      cases hl : (offsLoop data P fc fc.toNat (index + 2) []).val with
      | none => rw [hl] at h; simp at h
      | some r =>
        rcases r with ⟨mf, idx, o⟩
        rw [hl, Option.some_bind] at h
        simp only [] at h
        cases mf
        · simp only [Bool.false_eq_true, if_false, Run.val_pure, Option.some.injEq,
            Prod.mk.injEq, true_and] at h
          rcases offsLoop_shape data P fc _ _ _ _ _ _ hl with h1 | h1
          · left; omega
          · simp at h1
        · simp only [if_true, Run.val_pure, Option.some.injEq] at h
          rcases offsSizesLoop_shape P fc o (fc - 1).toNat 0 idx with h1 | h1
          · rw [h1] at h
            simp only [Prod.mk.injEq, true_and] at h
            left; omega
          · rw [h1] at h
            simp at h
    · rw [if_neg hc] at h
      simp only [Run.val_pure, Option.some.injEq, Prod.mk.injEq, true_and] at h
      right; omega

/-- The first loop of the offset check succeeds, collecting the offsets, when they
all lie in the buffer and pass the check of line 79. -/
theorem offsLoop_accepts (data : List Byte) (P fc : Int) (n index : Nat) (offs : List Int)
    (hb : index + 4 * n ≤ data.length)
    (hok : ∀ i, i < n → int32At data (index + 4 * i) ≤ P - (fc * 4 + 2)) :
    (offsLoop data P fc n index offs).val
      = some (true, index + 4 * n,
          offs ++ (List.range n).map (fun i => int32At data (index + 4 * i))) := by
  induction n generalizing index offs with
  | zero => simp [offsLoop]
  | succ n ih =>
    rw [offsLoop, Run.val_bind, getIntFromBytes_val data index (by omega), Option.some_bind]
    simp only []
    have h0 := hok 0 (by omega)
    rw [Nat.mul_zero, Nat.add_zero] at h0
    rw [if_neg (by omega)]
    rw [ih (index + 4) (offs ++ [int32At data index]) (by omega)
      (fun i hi => by
        have := hok (i + 1) (by omega)
        rw [show index + 4 * (i + 1) = index + 4 + 4 * i by omega] at this
        exact this)]
    have e1 : index + 4 + 4 * n = index + 4 * (n + 1) := by omega
    have e2 : offs ++ [int32At data index]
          ++ List.map (fun i => int32At data (index + 4 + 4 * i)) (List.range n)
        = offs ++ List.map (fun i => int32At data (index + 4 * i)) (List.range (n + 1)) := by
      rw [List.range_succ_eq_map, List.map_cons, List.map_map, List.append_assoc,
        Nat.mul_zero, Nat.add_zero, List.singleton_append]
      congr 2
      apply List.map_congr_left
      intro i _
      show int32At data (index + 4 + 4 * i) = int32At data (index + 4 * (i + 1))
      congr 1; omega
    rw [e1, e2]

theorem offsSizesLoop_accepts (P fc : Int) (L : List Int) (n i index : Nat)
    (hok : ∀ j, j < n →
      ¬ (toInt32 (L.getD (i + j + 1) 0 - L.getD (i + j) 0) > P - (fc * 4 + 2)
          ∨ toInt32 (L.getD (i + j + 1) 0 - L.getD (i + j) 0) < 0)) :
    offsSizesLoop P fc L n i index = (true, index) := by
  induction n generalizing i with
  | zero => rfl
  | succ n ih =>
    rw [offsSizesLoop]
    have h0 := hok 0 (by omega)
    simp only [Nat.add_zero] at h0
    rw [if_neg h0]
    apply ih
    intro j hj
    have := hok (j + 1) (by omega)
    rw [show i + (j + 1) + 1 = i + 1 + j + 1 by omega,
      show i + (j + 1) = i + 1 + j by omega] at this
    exact this

theorem getD_map_range (g : Nat → Int) (n j : Nat) (h : j < n) :
    ((List.range n).map g).getD j 0 = g j := by
  rw [List.getD_eq_getElem _ _ (by simp; exact h)]
  simp

/-- A sufficient condition for the offset check (lines 70-101), entered at `index`,
to accept: the count `n` and the `n` offsets behind it pass the checks of lines
73, 79 and 91. -/
theorem matchOffs_accepts (data : List Byte) (index n : Nat)
    (hn : int16At data index = (n : Int)) (hpos : 0 < n)
    (hpre : n * 4 + 2 < data.length) (hb : index + 2 + 4 * n ≤ data.length)
    (hoff : ∀ i, i < n →
      int32At data (index + 2 + 4 * i) ≤ (data.length : Int) - ((n : Int) * 4 + 2))
    (hsz : ∀ j, j < n - 1 →
      ¬ (toInt32 (int32At data (index + 2 + 4 * (j + 1)) - int32At data (index + 2 + 4 * j))
            > (data.length : Int) - ((n : Int) * 4 + 2)
          ∨ toInt32 (int32At data (index + 2 + 4 * (j + 1))
              - int32At data (index + 2 + 4 * j)) < 0)) :
    (matchOffs data data.length index).val = some (true, index + 2 + 4 * n) := by
  rw [matchOffs, Run.val_bind, getShortFromBytes_val data index (by omega), Option.some_bind]
  simp only []
  rw [hn, if_pos (by omega), Run.val_bind, Int.toNat_ofNat,
    offsLoop_accepts data _ _ n (index + 2) [] hb hoff, Option.some_bind]
  simp only [if_true, Run.val_pure, List.nil_append]
  rw [offsSizesLoop_accepts]
  intro j hj
  have hj' : j < n - 1 := by omega
  rw [Nat.zero_add, getD_map_range _ n (j + 1) (by omega), getD_map_range _ n j (by omega)]
  exact hsz j hj'

theorem getD_flatten_replicate (a b c d : Byte) (n i : Nat) (h : i < n) :
    (List.replicate n [a, b, c, d]).flatten.getD (4 * i) 0 = a
    ∧ (List.replicate n [a, b, c, d]).flatten.getD (4 * i + 1) 0 = b
    ∧ (List.replicate n [a, b, c, d]).flatten.getD (4 * i + 2) 0 = c
    ∧ (List.replicate n [a, b, c, d]).flatten.getD (4 * i + 3) 0 = d := by
  induction n generalizing i with
  | zero => omega
  | succ n ih =>
    have e : (List.replicate (n + 1) [a, b, c, d]).flatten
        = a :: b :: c :: d :: (List.replicate n [a, b, c, d]).flatten := by
      rw [List.replicate_succ, List.flatten_cons]
      rfl
    rw [e]
    cases i with
    | zero => exact ⟨rfl, rfl, rfl, rfl⟩
    | succ i =>
      have := ih i (by omega)
      rw [show 4 * (i + 1) = 4 * i + 1 + 1 + 1 + 1 by omega,
        show 4 * i + 1 + 1 + 1 + 1 + 1 = 4 * i + 1 + 1 + 1 + 1 + 1 by rfl,
        show 4 * i + 1 + 1 + 1 + 1 + 2 = 4 * i + 2 + 1 + 1 + 1 + 1 by omega,
        show 4 * i + 1 + 1 + 1 + 1 + 3 = 4 * i + 3 + 1 + 1 + 1 + 1 by omega]
      simp only [List.getD_cons_succ]
      exact this

theorem gfxClash_int32At (i : Nat) (h : i < 259) :
    int32At gfxClash (1 + 2 + 4 * i) = -2147417855 := by
  obtain ⟨h0, h1, h2, h3⟩ := getD_flatten_replicate 0x01 0x01 0x01 0x80 259 i h
  have e : ∀ k, byteVal gfxClash (k + 1 + 1 + 1)
      = ((List.replicate 259 [(0x01 : Byte), 0x01, 0x01, 0x80]).flatten.getD k 0).val := by
    intro k
    unfold byteVal gfxClash
    simp only [List.cons_append, List.nil_append, List.getD_cons_succ]
  have e0 := e (4 * i)
  have e1 := e (4 * i + 1)
  have e2 := e (4 * i + 2)
  have e3 := e (4 * i + 3)
  rw [h0] at e0
  rw [h1] at e1
  rw [h2] at e2
  rw [h3] at e3
  unfold int32At uint32At
  rw [show 1 + 2 + 4 * i = 4 * i + 1 + 1 + 1 by omega,
    show 4 * i + 1 + 1 + 1 + 1 = 4 * i + 1 + 1 + 1 + 1 by rfl,
    show 4 * i + 1 + 1 + 1 + 2 = 4 * i + 2 + 1 + 1 + 1 by omega,
    show 4 * i + 1 + 1 + 1 + 3 = 4 * i + 3 + 1 + 1 + 1 by omega, e0, e1, e2, e3]
  decide

theorem classify_of_offsSizeAccepts (data : List Byte) (ha : offsSizeAccepts data) :
    (classify data).val = some FORMAT_PK_OFFS_SIZE := by
  have h3 : 3 ≤ data.length := by
    have := ha.1; have := ha.2.1; omega
  rcases matchOffsSize_val data (by omega) with ⟨_, hv⟩ | ⟨hn, _⟩
  · rw [classify_val data h3, hv]
    rfl
  · exact absurd ha hn

set_option maxRecDepth 100000 in
/-- The 1039-byte buffer `gfxClash` also starts with the signature.  It fails the
offset+size check on its count, which leaves the cursor at 1, and passes the offset
check with the count 259 then read from bytes 1-2. -/
theorem gfxClash_classified :
    6 ≤ gfxClash.length ∧ gfxClash.take 6 = [0xDF, 0x03, 0x01, 0x01, 0x01, 0x01]
      ∧ (classify gfxClash).val = some FORMAT_PK_OFFS := by
  have hlen : gfxClash.length = 1039 := by decide
  have h1 : (matchOffsSize gfxClash gfxClash.length).val = some (false, 1) := by decide
  have hn : int16At gfxClash 1 = (259 : Nat) := by unfold int16At; decide
  have h2 : (matchOffs gfxClash gfxClash.length 1).val = some (true, 1 + 2 + 4 * 259) := by
    apply matchOffs_accepts gfxClash 1 259 hn (by omega) (by omega) (by omega)
    · intro i hi
      rw [gfxClash_int32At i hi, hlen]
      decide
    · intro j hj
      rw [gfxClash_int32At (j + 1) (by omega), gfxClash_int32At j (by omega), hlen]
      decide
  have hc : (classify gfxClash).val = some FORMAT_PK_OFFS := by
    rw [classify_val gfxClash (by omega), h1, Option.some_bind]
    simp only [Bool.false_eq_true, if_false]
    rw [h2, Option.some_bind]
    rfl
  exact ⟨by omega, by decide, hc⟩

/-! ### The alt offset format -/

theorem offsAltLoop_shape (data : List Byte) (P fc : Int) (n index idx : Nat)
    (offs o : List Int) (mf : Bool)
    (h : (offsAltLoop data P fc n index offs).val = some (mf, idx, o)) :
    (mf = false ∧ idx = 0) ∨ (mf = true ∧ idx = index + 4 * n) := by
  induction n generalizing index offs with
  | zero =>
    simp only [offsAltLoop, Run.val_pure, Option.some.injEq, Prod.mk.injEq] at h
    right; exact ⟨h.1.symm, by omega⟩
  | succ n ih =>
    rw [offsAltLoop] at h
    by_cases hc0 : (index : Int) + 4 > P
    · rw [if_pos hc0] at h
      simp only [Run.val_pure, Option.some.injEq, Prod.mk.injEq] at h
      left; exact ⟨h.1.symm, h.2.1.symm⟩
    · rw [if_neg hc0, Run.val_bind] at h
      cases hg : (getIntFromBytes data index).val with
      | none => rw [hg] at h; simp at h
      | some r =>
        rcases r with ⟨v, i⟩
        obtain ⟨_, _, rfl⟩ := getIntFromBytes_val_some data index i v hg
        rw [hg, Option.some_bind] at h
        simp only [] at h
        by_cases hc : v > toInt32 (P - toInt32 (fc * 4 + 4))
        · rw [if_pos hc] at h
          simp only [Run.val_pure, Option.some.injEq, Prod.mk.injEq] at h
          left; exact ⟨h.1.symm, h.2.1.symm⟩
        · rw [if_neg hc] at h
          rcases ih (index + 4) (offs ++ [v]) h with h1 | h1
          · left; exact h1
          · right; exact ⟨h1.1, by omega⟩

theorem offsAltSizesLoop_shape (P fc : Int) (L : List Int) (n i index : Nat) :
    offsAltSizesLoop P fc L n i index = (false, 0)
      ∨ offsAltSizesLoop P fc L n i index = (true, index) := by
  induction n generalizing i with
  | zero => right; rfl
  | succ n ih =>
    rw [offsAltSizesLoop]
    split
    · left; rfl
    · exact ih (i + 1)

/-- When the alt offset check (lines 103-139), entered at `index`, accepts: the
count it decoded at `index` is positive, the cursor ends right behind the offset
table, and the byte there is `0x00`. -/
theorem matchOffsAlt_accepted (data : List Byte) (P : Int) (index i3 : Nat)
    (h : (matchOffsAlt data P index).val = some (true, i3)) :
    index + 4 ≤ data.length ∧ 0 < int32At data index
      ∧ i3 = index + 4 + 4 * (int32At data index).toNat ∧ data[i3]? = some 0 := by
  rw [matchOffsAlt, Run.val_bind] at h
  cases hg : (getIntFromBytes data index).val with
  | none => rw [hg] at h; simp at h
  | some r =>
    rcases r with ⟨fc, i⟩
    obtain ⟨hb, rfl, rfl⟩ := getIntFromBytes_val_some data index i fc hg
    rw [hg, Option.some_bind] at h
    simp only [] at h
    by_cases hc : toInt32 (int32At data index * 4 + 5) < P ∧ int32At data index > 0
    · rw [if_pos hc, Run.val_bind] at h
      cases hl : (offsAltLoop data P (int32At data index) (int32At data index).toNat
          (index + 4) []).val with
      | none => rw [hl] at h; simp at h
      | some r =>
        rcases r with ⟨mf, idx, o⟩
        rw [hl, Option.some_bind] at h
        simp only [] at h
        have key : ∀ (b : Bool) (j : Nat),
            (byteAt data j >>= fun x =>
              if x = 0 ∧ b = true then (pure (true, j) : Run (Bool × Nat))
              else pure (false, j)).val = some (true, i3) →
            b = true ∧ j = i3 ∧ data[j]? = some 0 := by
          intro b j hh
          rw [Run.val_bind] at hh
          cases hx : (byteAt data j).val with
          | none => rw [hx] at hh; simp at hh
          | some x =>
            rw [hx, Option.some_bind] at hh
            by_cases hc2 : x = 0 ∧ b = true
            · rw [if_pos hc2] at hh
              simp only [Run.val_pure, Option.some.injEq, Prod.mk.injEq, true_and] at hh
              have hx' : data[j]? = some x := hx
              rw [hc2.1] at hx'
              exact ⟨hc2.2, hh, hx'⟩
            · rw [if_neg hc2] at hh
              simp at hh
        cases mf
        · rw [if_neg Bool.false_ne_true] at h
          have := (key false idx h).1
          simp at this
        · rw [if_pos rfl] at h
          rcases offsAltLoop_shape data P _ _ _ _ _ _ _ hl with h1 | h1
          · simp at h1
          · rcases offsAltSizesLoop_shape P (int32At data index) o
                ((int32At data index) - 1).toNat 0 idx with h2 | h2
            · rw [h2] at h
              have := (key false 0 h).1
              simp at this
            · rw [h2] at h
              obtain ⟨_, hj, hz⟩ := key true idx h
              refine ⟨hb, by omega, ?_, ?_⟩
              · omega
              · rw [← hj]; exact hz
    · rw [if_neg hc] at h
      simp at h

/-- A run that completes inside the buffer with `FORMAT_PK_OFFS_ALT` found a `0x00`
byte right behind the offset table it decoded: with `c` the cursor left by the two
earlier checks (0, 2 or 3), the 32-bit count `n` at `c` is positive, the `n`
offsets occupy bytes `c + 4 .. c + 4 + 4n - 1`, and byte `c + 4 + 4n` is `0x00`. -/
theorem classify_offs_alt_trailing_zero (data : List Byte)
    (h : (classify data).val = some FORMAT_PK_OFFS_ALT) :
    ∃ i1 c n : Nat,
      (matchOffsSize data data.length).val = some (false, i1)
      ∧ (matchOffs data data.length i1).val = some (false, c)
      ∧ (c = 0 ∨ c = 2 ∨ c = 3)
      ∧ int32At data c = (n : Int) ∧ 0 < n
      ∧ data[c + 4 + 4 * n]? = some 0 := by
  rcases classify_inv data _ h with ⟨_, hf⟩ | ⟨_, _, _, hf⟩ | ⟨_, _, _, _, _, hf⟩
    | ⟨h3, i1, i2, i3, h1, h2, ha, _⟩ | ⟨_, _, hf⟩ | ⟨_, _, hm⟩
  · cases hf
  · cases hf
  · cases hf
  · obtain ⟨_, hpos, hi3, hz⟩ := matchOffsAlt_accepted data _ i2 i3 ha
    have hi1 : i1 = 0 ∨ i1 = 1 := by
      rcases matchOffsSize_val data (by omega) with ⟨_, hv⟩ | ⟨_, hv | hv⟩
      · rw [hv] at h1; simp at h1
      · rw [hv] at h1; simp at h1; omega
      · rw [hv] at h1; simp at h1; omega
    have hi2 := matchOffs_rejected_index data _ i1 i2 h2
    refine ⟨i1, i2, (int32At data i2).toNat, h1, h2, by omega, by omega, by omega, ?_⟩
    rw [← hi3]; exact hz
  · cases hf
  · rcases matchMin_val data _ _ hm with hf | hf | hf <;> cases hf

/-! ### The minimal pack cascade -/

theorem classify_of_rejected (data : List Byte) (h3 : 3 ≤ data.length)
    (h : rejectedByFirstFour data) :
    (classify data).val = (matchMin data data.length).val := by
  obtain ⟨i1, i2, i3, h1, h2, h3', h4⟩ := h
  rw [classify_val data h3, h1, Option.some_bind]
  simp only [Bool.false_eq_true, if_false]
  rw [h2, Option.some_bind]
  simp only [Bool.false_eq_true, if_false]
  rw [h3', Option.some_bind]
  simp only [Bool.false_eq_true, if_false]
  rw [h4, Option.some_bind]
  simp only [Bool.false_eq_true, if_false]

/-- The cascade classifies as `FORMAT_PK_MIN` when the first four checks fail, the
loop ends exactly at the end of the buffer, and either the number of sub-entries
is not 2 or the 16-bit value read at the second sub-entry's offset fails the
text-pack relation. -/
theorem classify_pack_min (data : List Byte) (s : MinState) (h3 : 3 ≤ data.length)
    (hrej : rejectedByFirstFour data)
    (hloop : (minLoop data data.length data.length minInit).val = some s)
    (hm : s.matchFound = true) (hend : s.index = data.length)
    (hno : s.fileCount ≠ 2 ∨ ∃ k i,
      (getShortFromBytes data (s.packFileOffsets.getD 1 0)).val = some (k, i)
        ∧ k * 2 ≠ s.packFileSizes.getD 1 0 - 2) :
    (classify data).val = some FORMAT_PK_MIN := by
  rw [classify_of_rejected data h3 hrej, matchMin, Run.val_bind]
  rw [hloop, Option.some_bind, if_pos ⟨hm, by omega, by rw [hend]⟩]
  rcases hno with hc | ⟨k, i, hk, hne⟩
  · rw [if_neg hc]
    rfl
  · by_cases hc : s.fileCount = 2
    · rw [if_pos hc, Run.val_bind, hk, Option.some_bind]
      simp only []
      rw [if_neg hne]
      rfl
    · rw [if_neg hc]
      rfl

/-! ### Accesses outside the buffer -/

theorem matchOffsSize_pre_fail (data : List Byte) (h : 1 ≤ data.length)
    (hpre : ¬ (byteVal data 0 * 8 + 1 < data.length ∧ 0 < byteVal data 0)) :
    (matchOffsSize data data.length).val = some (false, 1) := by
  unfold matchOffsSize
  simp only [Run.val_bind, byteAt_val data 0 (by omega), Option.some_bind]
  have hb : ((data.getD 0 0).val : Int) = (byteVal data 0 : Nat) := rfl
  simp only [hb, Nat.zero_add]
  rw [if_neg (by omega)]
  rfl

theorem matchOffs_pre_fail (data : List Byte) (index : Nat) (h : index + 2 ≤ data.length)
    (hpre : ¬ (int16At data index * 4 + 2 < (data.length : Int) ∧ int16At data index > 0)) :
    (matchOffs data data.length index).val = some (false, index + 2) := by
  rw [matchOffs, Run.val_bind, getShortFromBytes_val data index h, Option.some_bind]
  simp only []
  rw [if_neg hpre]
  rfl

theorem matchOffsAlt_none (data : List Byte) (P : Int) (index : Nat)
    (h : data.length < index + 4) : (matchOffsAlt data P index).val = none := by
  rw [matchOffsAlt, Run.val_bind, getIntFromBytes_val_none data index h]
  rfl

/-- Every buffer of 3 to 6 bytes makes the constructor read past its end: the
first two checks fail on their counts, which leaves the cursor at 3, and the
32-bit count of the alt offset check (line 105) is read from bytes 3..6. -/
theorem classify_len_3_to_6 (data : List Byte) (h3 : 3 ≤ data.length)
    (h6 : data.length ≤ 6) : (classify data).val = none := by
  have h1 := matchOffsSize_pre_fail data (by omega) (by omega)
  have h2 := matchOffs_pre_fail data 1 (by omega) (by omega)
  have ha := matchOffsAlt_none data data.length 3 (by omega)
  rw [classify_val data h3, h1, Option.some_bind]
  simp only [Bool.false_eq_true, if_false]
  rw [h2, Option.some_bind]
  simp only [Bool.false_eq_true, if_false]
  rw [ha]
  rfl

/-- C3 (evaluation at failing inputs): the constructor accesses elements outside
the buffer.  On the 3-byte buffer `00 00 00` it reads `data[3]` (the 32-bit count
of line 105); on an 11-byte buffer whose alt offset table ends at the end of the
buffer it reads `data[11]` (the trailing-byte test of line 135); on a 7-byte
buffer whose cascade leaves one byte it reads `data[7]` (the 16-bit size of
line 162). -/
theorem classify_reads_past_end :
    classify [0, 0, 0] = Run.mk [0, 1, 2, 3] none
    ∧ classify [0, 0, 0, 1, 0, 0, 0, 0, 0, 0, 0]
        = Run.mk [0, 1, 2, 3, 4, 5, 6, 7, 8, 9, 10, 11] none
    ∧ classify [1, 0, 0, 1, 0, 0, 0]
        = Run.mk [0, 1, 2, 3, 4, 5, 6, 0, 0, 1, 3, 4, 6, 7] none := by
  decide

/-- C2 (evaluation at failing inputs): the cursor is not reset when a check fails on
its count.  On `00 01 00 00 00 00 00` the offset+size check leaves the cursor at
1, the offset check decodes its 16-bit count from bytes 1 and 2 (count 1) and
accepts, whereas from cursor 0 it decodes the count 256 and fails.  On the
12-byte buffer the alt offset check decodes its 32-bit count from bytes 3..6
(count 1) and accepts, whereas from cursor 0 it fails. -/
theorem matchers_start_at_left_cursor :
    (matchOffsSize [0, 1, 0, 0, 0, 0, 0] 7).val = some (false, 1)
    ∧ matchOffs [0, 1, 0, 0, 0, 0, 0] 7 1 = Run.mk [1, 2, 3, 4, 5, 6] (some (true, 7))
    ∧ matchOffs [0, 1, 0, 0, 0, 0, 0] 7 0 = Run.mk [0, 1] (some (false, 2))
    ∧ classify [0, 1, 0, 0, 0, 0, 0] = Run.mk [0, 1, 2, 3, 4, 5, 6] (some FORMAT_PK_OFFS)
    ∧ (matchOffs [0, 0, 0, 1, 0, 0, 0, 0, 0, 0, 0, 0] 12 1).val = some (false, 3)
    ∧ matchOffsAlt [0, 0, 0, 1, 0, 0, 0, 0, 0, 0, 0, 0] 12 3
        = Run.mk [3, 4, 5, 6, 7, 8, 9, 10, 11] (some (true, 11))
    ∧ (matchOffsAlt [0, 0, 0, 1, 0, 0, 0, 0, 0, 0, 0, 0] 12 0).val = some (false, 4)
    ∧ (classify [0, 0, 0, 1, 0, 0, 0, 0, 0, 0, 0, 0]).val = some FORMAT_PK_OFFS_ALT := by
  decide

/-- C7 (evaluation): the spec's example `02 00 AA BB 02 00 CC DD` is classified
`FORMAT_PK_MIN`.  On `03 00 00 00 00 00 00` the first four checks fail and the cascade
ends at the end of the buffer with two sub-entries, the second one empty; the
constructor then reads the 16-bit count at offset 7, outside the buffer
(line 177), instead of classifying the buffer as `FORMAT_PK_MIN`. -/
theorem classify_min_empty_second_entry :
    classify [0x02, 0x00, 0xAA, 0xBB, 0x02, 0x00, 0xCC, 0xDD]
        = Run.mk [0, 1, 2, 3, 4, 5, 6, 0, 0, 1, 4, 5, 6, 7] (some FORMAT_PK_MIN)
    ∧ rejectedByFirstFour [3, 0, 0, 0, 0, 0, 0]
    ∧ (minLoop [3, 0, 0, 0, 0, 0, 0] 7 7 minInit).val
        = some { matchFound := true, index := 7, fileCount := 2,
                 packFileOffsets := [2, 7], packFileSizes := [3, 0] }
    ∧ classify [3, 0, 0, 0, 0, 0, 0]
        = Run.mk [0, 1, 2, 3, 4, 5, 6, 0, 0, 1, 5, 6, 7] none :=
  ⟨by decide, ⟨1, 3, 7, by decide, by decide, by decide, by decide⟩, by decide, by decide⟩

/-! ### The fuel of the cascade loop -/

theorem Run.bind_congr {α β : Type} (m : Run α) (f g : α → Run β)
    (h : ∀ a, m.val = some a → f a = g a) : m >>= f = m >>= g := by
  rw [Run.bind_def, Run.bind_def, Run.andThen, Run.andThen]
  cases hm : m.val with
  | none => rfl
  | some a => simp only [h a hm]

/-- An iteration of the cascade that does not abort advances the cursor by at least
the two bytes of the size field. -/
theorem minBody_progress (data : List Byte) (P : Int) (s t : MinState)
    (h : (minBody data P s).val = some t) (hm : t.matchFound = true) :
    s.index + 2 ≤ t.index := by
  rw [minBody, Run.val_bind] at h
  cases hg : (getShortFromBytes data s.index).val with
  | none => rw [hg] at h; simp at h
  | some r =>
    rcases r with ⟨fs, i⟩
    obtain ⟨_, _, rfl⟩ := getShortFromBytes_val_some data s.index i fs hg
    rw [hg, Option.some_bind] at h
    simp only [] at h
    split at h
    · simp only [Run.val_pure, Option.some.injEq] at h
      rw [← h] at hm
      simp at hm
    · simp only [Run.val_pure, Option.some.injEq] at h
      rw [← h]
      simp only []
      omega

/-- The loop never runs out of fuel: once `2 * fuel` covers the bytes behind the
cursor, more fuel does not change the run.  In particular `fuel = data.length`,
used by `matchMin` from cursor 0, is enough. -/
theorem minLoop_fuel (data : List Byte) (fuel k : Nat) (s : MinState)
    (h : data.length ≤ s.index + 2 * fuel) :
    minLoop data data.length (fuel + k) s = minLoop data data.length fuel s := by
  induction fuel generalizing s with
  | zero =>
    cases k with
    | zero => rfl
    | succ k =>
      have e1 : minLoop data data.length (k + 1) s = pure s := by
        rw [minLoop]
        exact if_neg (by omega)
      rw [Nat.zero_add, e1]
      rfl
  | succ fuel ih =>
    rw [show fuel + 1 + k = fuel + k + 1 by omega, minLoop, minLoop]
    by_cases hc : (s.index : Int) < (data.length : Int)
    · rw [if_pos hc, if_pos hc]
      apply Run.bind_congr
      intro t ht
      by_cases hm : t.matchFound = true
      · rw [if_pos hm, if_pos hm]
        have := minBody_progress data _ s t ht hm
        exact ih t (by omega)
      · rw [if_neg hm, if_neg hm]
    · rw [if_neg hc, if_neg hc]

/-! ### The 16-bit reader -/

/-- C11 (amended): for a cursor `c` with `c + 2 ≤ length`, `getShortFromBytes` accesses
bytes `c` and `c+1`, returns the little-endian value `b[c] + 256*b[c+1]` reduced to a
signed 16-bit two's-complement value (a number in `-32768 .. 32767`, negative exactly
when `b[c+1] ≥ 0x80` and equal to the unsigned value otherwise), and leaves the
cursor at `c + 2`. -/
theorem getShortFromBytes_signed_le (bytes : List Byte) (c : Nat)
    (h : c + 2 ≤ bytes.length) :
    ∃ (v : Int) (u : Nat),
      getShortFromBytes bytes c = Run.mk [c, c + 1] (some (v, c + 2))
      ∧ u = bytes[c].val + 256 * bytes[c + 1].val
      ∧ v = (if u < 32768 then (u : Int) else (u : Int) - 65536)
      ∧ -32768 ≤ v ∧ v ≤ 32767
      ∧ (v < 0 ↔ 0x80 ≤ bytes[c + 1].val) := by
  have h0 := byteVal_lt bytes c
  have h1 := byteVal_lt bytes (c + 1)
  have hu : uint16At bytes c < 65536 := by
    unfold uint16At; omega
  have e0 := byteVal_eq bytes c (by omega)
  have e1 := byteVal_eq bytes (c + 1) (by omega)
  have hv16 : int16At bytes c
      = (if uint16At bytes c < 32768 then (uint16At bytes c : Int)
          else (uint16At bytes c : Int) - 65536) := by
    unfold int16At
    rewrite [toInt16_natCast _ hu]
    rfl
  refine ⟨int16At bytes c, uint16At bytes c, ?_, ?_, hv16, ?_, ?_, ?_⟩
  · have hv := getShortFromBytes_val bytes c h
    have hr := getShortFromBytes_reads bytes c h
    cases hg : getShortFromBytes bytes c with
    | mk r v =>
      rw [hg] at hv hr
      simp only [Run.val_mk, Run.reads_mk] at hv hr
      rw [hv, hr]
  · unfold uint16At
    omega
  · rw [hv16]; split <;> omega
  · rw [hv16]; split <;> omega
  · rw [hv16]
    unfold uint16At at *
    split <;> omega

theorem getShortFromBytes_signed_le_witness :
    0 + 2 ≤ ([0xCC, 0xDD] : List Byte).length
    ∧ ∃ (v : Int) (u : Nat),
      getShortFromBytes [0xCC, 0xDD] 0 = Run.mk [0, 0 + 1] (some (v, 0 + 2))
      ∧ u = ([0xCC, 0xDD] : List Byte)[0].val + 256 * ([0xCC, 0xDD] : List Byte)[0 + 1].val
      ∧ v = (if u < 32768 then (u : Int) else (u : Int) - 65536)
      ∧ -32768 ≤ v ∧ v ≤ 32767
      ∧ (v < 0 ↔ 0x80 ≤ ([0xCC, 0xDD] : List Byte)[0 + 1].val) :=
  ⟨by decide, getShortFromBytes_signed_le [0xCC, 0xDD] 0 (by decide)⟩

/-- C11 (counterexample): on the two bytes `CC DD` at cursor 0 the reader returns
`-8756`, not the unsigned little-endian value `0xCC + 256*0xDD = 56780`, and not a
number in `0 .. 65535`. -/
theorem getShortFromBytes_unsigned_counterexample :
    0 + 2 ≤ ([0xCC, 0xDD] : List Byte).length
    ∧ getShortFromBytes [0xCC, 0xDD] 0 = Run.mk [0, 1] (some (-8756, 2))
    ∧ (getShortFromBytes [0xCC, 0xDD] 0).val ≠ some ((0xCC + 256 * 0xDD : Int), 2)
    ∧ ¬ ((0 : Int) ≤ -8756) := by
  decide

/-! ### Independence of name and path -/

/-- The constructor's run is the run of `classify` on the data, with the name and path
stored unexamined. -/
theorem create_eq (d : List Byte) (n p : String) :
    GenericAssetFile.create d n p
      = Run.mk (classify d).reads
          ((classify d).val.map fun f => { data := d, name := n, path := p, format := f }) := by
  unfold GenericAssetFile.create
  rw [Run.bind_def, Run.andThen]
  cases hc : (classify d).val with
  | none => rfl
  | some f =>
    simp only [Option.map_some']
    congr 1
    exact List.append_nil _

/-- The name and the path are not examined: constructing from `(d, name1, path1)`
and from `(d, name2, path2)` accesses the same elements and yields the same
format, the one `classify d` computes. -/
theorem create_ignores_name_and_path (d : List Byte) (name1 path1 name2 path2 : String) :
    (GenericAssetFile.create d name1 path1).reads = (GenericAssetFile.create d name2 path2).reads
    ∧ (GenericAssetFile.create d name1 path1).val.map (fun a => a.format)
        = (GenericAssetFile.create d name2 path2).val.map (fun a => a.format)
    ∧ (GenericAssetFile.create d name1 path1).val.map (fun a => a.format)
        = (classify d).val := by
  have key : ∀ n p, (GenericAssetFile.create d n p).val.map (fun a => a.format)
      = (classify d).val := by
    intro n p
    rw [create_eq, Run.val_mk, Option.map_map]
    cases (classify d).val <;> rfl
  refine ⟨?_, ?_, key name1 path1⟩
  · rw [create_eq, create_eq]; rfl
  · rw [key, key]

/-! ### Negative table entries and the count of the alt offset format -/

theorem int32At_neg (data : List Byte) (c : Nat) (h : 0x80 ≤ byteVal data (c + 3)) :
    int32At data c < 0 := by
  have h0 := byteVal_lt data c
  have h1 := byteVal_lt data (c + 1)
  have h2 := byteVal_lt data (c + 2)
  have h3 := byteVal_lt data (c + 3)
  have hu : uint32At data c < 4294967296 := by
    unfold uint32At; omega
  unfold int32At
  rewrite [toInt32_natCast _ hu]
  unfold uint32At at *
  split <;> omega

/-- C16: the headroom checks of line 58 have no lower bound.  If the first byte `n`
satisfies `n > 0` and `n*8 + 1 < totalLength` and the offset and size fields of
all `n` entries are negative as signed 32-bit values (their top bytes, at
`1 + 8i + 3` and `5 + 8i + 3`, are `≥ 0x80`), the buffer is classified
`FORMAT_PK_OFFS_SIZE`. -/
theorem classify_negative_entries (data : List Byte)
    (hn : 0 < byteVal data 0) (hpre : byteVal data 0 * 8 + 1 < data.length)
    (hneg : ∀ i, i < byteVal data 0 →
      0x80 ≤ byteVal data (1 + 8 * i + 3) ∧ 0x80 ≤ byteVal data (5 + 8 * i + 3)) :
    (classify data).val = some FORMAT_PK_OFFS_SIZE := by
  apply classify_of_offsSizeAccepts
  refine ⟨hn, hpre, ?_⟩
  intro i hi
  have h1 := int32At_neg data (1 + 8 * i) (hneg i hi).1
  have h2 := int32At_neg data (5 + 8 * i) (hneg i hi).2
  constructor <;> omega

theorem classify_negative_entries_witness :
    0 < byteVal [0x01, 0x00, 0x00, 0x00, 0x80, 0x00, 0x00, 0x00, 0x80, 0x00] 0
    ∧ byteVal [0x01, 0x00, 0x00, 0x00, 0x80, 0x00, 0x00, 0x00, 0x80, 0x00] 0 * 8 + 1
        < ([0x01, 0x00, 0x00, 0x00, 0x80, 0x00, 0x00, 0x00, 0x80, 0x00] : List Byte).length
    ∧ (∀ i, i < byteVal [0x01, 0x00, 0x00, 0x00, 0x80, 0x00, 0x00, 0x00, 0x80, 0x00] 0 →
        0x80 ≤ byteVal [0x01, 0x00, 0x00, 0x00, 0x80, 0x00, 0x00, 0x00, 0x80, 0x00]
            (1 + 8 * i + 3)
        ∧ 0x80 ≤ byteVal [0x01, 0x00, 0x00, 0x00, 0x80, 0x00, 0x00, 0x00, 0x80, 0x00]
            (5 + 8 * i + 3))
    ∧ (classify [0x01, 0x00, 0x00, 0x00, 0x80, 0x00, 0x00, 0x00, 0x80, 0x00]).val
        = some FORMAT_PK_OFFS_SIZE :=
  ⟨by decide, by decide, by decide,
    classify_negative_entries [0x01, 0x00, 0x00, 0x00, 0x80, 0x00, 0x00, 0x00, 0x80, 0x00]
      (by decide) (by decide) (by decide)⟩

/-- C17: wrap-around in the precondition `fileCount*4 + 5 < packFileSize` of line 106
never leads to an accepted match.  For a buffer shorter than `2^31` bytes that is
classified `FORMAT_PK_OFFS_ALT`, the 32-bit count `n` decoded at the cursor `c` left
by the earlier checks satisfies `n ≥ 1` and, in exact arithmetic,
`n*4 + 4 ≤ totalLength` (even `c + 4 + 4n < totalLength`), so `n*4 + 5` did not
wrap. -/
theorem classify_offs_alt_count_fits (data : List Byte) (hlen : data.length < 2147483648)
    (h : (classify data).val = some FORMAT_PK_OFFS_ALT) :
    ∃ i1 c n : Nat,
      (matchOffsSize data data.length).val = some (false, i1)
      ∧ (matchOffs data data.length i1).val = some (false, c)
      ∧ int32At data c = (n : Int)
      ∧ 1 ≤ n ∧ n * 4 + 4 ≤ data.length ∧ c + 4 + 4 * n < data.length
      ∧ toInt32 ((n * 4 + 5 : Nat) : Int) = ((n * 4 + 5 : Nat) : Int) := by
  rcases classify_inv data _ h with ⟨_, hf⟩ | ⟨_, _, _, hf⟩ | ⟨_, _, _, _, _, hf⟩
    | ⟨h3, i1, i2, i3, h1, h2, ha, _⟩ | ⟨_, _, hf⟩ | ⟨_, _, hm⟩
  · cases hf
  · cases hf
  · cases hf
  · obtain ⟨_, hpos, hi3, hz⟩ := matchOffsAlt_accepted data _ i2 i3 ha
    have hlt : i3 < data.length := by
      rcases List.getElem?_eq_some_iff.1 hz with ⟨hh, _⟩
      exact hh
    refine ⟨i1, i2, (int32At data i2).toNat, h1, h2, by omega, by omega, by omega, by omega,
      ?_⟩
    rw [toInt32_natCast _ (by omega), if_pos (by omega)]
  · cases hf
  · rcases matchMin_val data _ _ hm with hf | hf | hf <;> cases hf

theorem classify_offs_alt_count_fits_witness :
    ([0, 0, 0, 1, 0, 0, 0, 0, 0, 0, 0, 0] : List Byte).length < 2147483648
    ∧ (classify [0, 0, 0, 1, 0, 0, 0, 0, 0, 0, 0, 0]).val = some FORMAT_PK_OFFS_ALT
    ∧ ∃ i1 c n : Nat,
      (matchOffsSize [0, 0, 0, 1, 0, 0, 0, 0, 0, 0, 0, 0]
          ([0, 0, 0, 1, 0, 0, 0, 0, 0, 0, 0, 0] : List Byte).length).val = some (false, i1)
      ∧ (matchOffs [0, 0, 0, 1, 0, 0, 0, 0, 0, 0, 0, 0]
          ([0, 0, 0, 1, 0, 0, 0, 0, 0, 0, 0, 0] : List Byte).length i1).val = some (false, c)
      ∧ int32At [0, 0, 0, 1, 0, 0, 0, 0, 0, 0, 0, 0] c = (n : Int)
      ∧ 1 ≤ n ∧ n * 4 + 4 ≤ ([0, 0, 0, 1, 0, 0, 0, 0, 0, 0, 0, 0] : List Byte).length
      ∧ c + 4 + 4 * n < ([0, 0, 0, 1, 0, 0, 0, 0, 0, 0, 0, 0] : List Byte).length
      ∧ toInt32 ((n * 4 + 5 : Nat) : Int) = ((n * 4 + 5 : Nat) : Int) :=
  ⟨by decide, by decide,
    classify_offs_alt_count_fits [0, 0, 0, 1, 0, 0, 0, 0, 0, 0, 0, 0] (by decide) (by decide)⟩

/-! ### Progress of the cascade -/

theorem minLoopIters_le (data : List Byte) (fuel : Nat) (s : MinState) :
    minLoopIters data data.length fuel s ≤ (data.length - s.index + 1) / 2 := by
  induction fuel generalizing s with
  | zero => simp [minLoopIters]
  | succ fuel ih =>
    rw [minLoopIters]
    by_cases hc : (s.index : Int) < (data.length : Int)
    · rw [if_pos hc]
      cases hb : (minBody data data.length s).val with
      | none => simp only []; omega
      | some t =>
        simp only []
        by_cases hm : t.matchFound = true
        · rw [if_pos hm]
          have hp := minBody_progress data _ s t hb hm
          have := ih t
          omega
        · rw [if_neg hm]
          omega
    · rw [if_neg hc]
      omega

/-- C14: the cascade terminates by monotonic progress.  An iteration of the loop body
that does not abort the match leaves the cursor at least 2 further; hence the
body is executed at most `ceil(L/2)` times on a buffer of length `L`, however
many iterations are allowed, and the loop unrolled `ceil(L/2)` times is the whole
loop. -/
theorem minLoop_progress_and_bound (data : List Byte) :
    (∀ s t : MinState, (minBody data data.length s).val = some t → t.matchFound = true →
        s.index + 2 ≤ t.index)
    ∧ (∀ fuel, minLoopIters data data.length fuel minInit ≤ (data.length + 1) / 2)
    ∧ (∀ k, minLoop data data.length ((data.length + 1) / 2 + k) minInit
        = minLoop data data.length ((data.length + 1) / 2) minInit) := by
  refine ⟨fun s t h hm => minBody_progress data _ s t h hm, ?_, ?_⟩
  · intro fuel
    have := minLoopIters_le data fuel minInit
    have h0 : minInit.index = 0 := rfl
    rw [h0] at this
    omega
  · intro k
    apply minLoop_fuel
    have h0 : minInit.index = 0 := rfl
    rw [h0]
    omega

/-! ### The reads of the first two checks -/

theorem Run.inBounds_pure {α : Type} (L : Nat) (a : α) : (pure a : Run α).InBounds L :=
  ⟨⟨a, rfl⟩, fun i hi => by simp at hi⟩

theorem Run.inBounds_bind {α β : Type} (L : Nat) (m : Run α) (f : α → Run β)
    (hm : m.InBounds L) (hf : ∀ a, m.val = some a → (f a).InBounds L) :
    (m >>= f).InBounds L := by
  obtain ⟨⟨a, ha⟩, hr⟩ := hm
  obtain ⟨⟨b, hb⟩, hr'⟩ := hf a ha
  refine ⟨⟨b, ?_⟩, ?_⟩
  · rw [Run.val_bind, ha, Option.some_bind, hb]
  · intro i hi
    rw [Run.reads_bind_some m f a ha, List.mem_append] at hi
    rcases hi with hi | hi
    · exact hr i hi
    · exact hr' i hi

theorem byteAt_inBounds (data : List Byte) (i : Nat) (h : i < data.length) :
    (byteAt data i).InBounds data.length := by
  refine ⟨⟨_, byteAt_val data i h⟩, ?_⟩
  intro j hj
  rw [byteAt_reads, List.mem_singleton] at hj
  omega

theorem getIntFromBytes_inBounds (data : List Byte) (c : Nat) (h : c + 4 ≤ data.length) :
    (getIntFromBytes data c).InBounds data.length := by
  refine ⟨⟨_, getIntFromBytes_val data c h⟩, ?_⟩
  intro j hj
  rw [getIntFromBytes_reads data c h] at hj
  simp only [List.mem_cons, List.mem_singleton, List.not_mem_nil, or_false] at hj
  omega

theorem getShortFromBytes_inBounds (data : List Byte) (c : Nat) (h : c + 2 ≤ data.length) :
    (getShortFromBytes data c).InBounds data.length := by
  refine ⟨⟨_, getShortFromBytes_val data c h⟩, ?_⟩
  intro j hj
  rw [getShortFromBytes_reads data c h] at hj
  simp only [List.mem_cons, List.mem_singleton, List.not_mem_nil, or_false] at hj
  omega

theorem offsSizeLoop_inBounds (data : List Byte) (P fc : Int) (n index : Nat)
    (h : index + 8 * n ≤ data.length) :
    (offsSizeLoop data P fc n index).InBounds data.length := by
  induction n generalizing index with
  | zero => exact Run.inBounds_pure _ _
  | succ n ih =>
    rw [offsSizeLoop]
    apply Run.inBounds_bind _ _ _ (getIntFromBytes_inBounds data index (by omega))
    intro r hr
    rcases r with ⟨v, i⟩
    obtain ⟨_, _, rfl⟩ := getIntFromBytes_val_some data index i v hr
    simp only []
    apply Run.inBounds_bind _ _ _ (getIntFromBytes_inBounds data (index + 4) (by omega))
    intro r' hr'
    rcases r' with ⟨v', i'⟩
    obtain ⟨_, _, rfl⟩ := getIntFromBytes_val_some data (index + 4) i' v' hr'
    simp only []
    split
    · exact Run.inBounds_pure _ _
    · exact ih (index + 4 + 4) (by omega)

theorem matchOffsSize_inBounds (data : List Byte) (h : 1 ≤ data.length) :
    (matchOffsSize data data.length).InBounds data.length := by
  unfold matchOffsSize
  apply Run.inBounds_bind _ _ _ (byteAt_inBounds data 0 (by omega))
  intro b _
  simp only []
  split
  · rename_i hc
    rw [Int.toNat_ofNat]
    apply offsSizeLoop_inBounds
    omega
  · exact Run.inBounds_pure _ _

theorem offsLoop_inBounds (data : List Byte) (P fc : Int) (n index : Nat) (offs : List Int)
    (h : index + 4 * n ≤ data.length) :
    (offsLoop data P fc n index offs).InBounds data.length := by
  induction n generalizing index offs with
  | zero => exact Run.inBounds_pure _ _
  | succ n ih =>
    rw [offsLoop]
    apply Run.inBounds_bind _ _ _ (getIntFromBytes_inBounds data index (by omega))
    intro r hr
    rcases r with ⟨v, i⟩
    obtain ⟨_, _, rfl⟩ := getIntFromBytes_val_some data index i v hr
    simp only []
    split
    · exact Run.inBounds_pure _ _
    · exact ih (index + 4) _ (by omega)

theorem matchOffs_inBounds (data : List Byte) (index : Nat) (hi : index ≤ 1)
    (h : 3 ≤ data.length) :
    (matchOffs data data.length index).InBounds data.length := by
  rw [matchOffs]
  apply Run.inBounds_bind _ _ _ (getShortFromBytes_inBounds data index (by omega))
  intro r hr
  rcases r with ⟨fc, i⟩
  obtain ⟨_, _, rfl⟩ := getShortFromBytes_val_some data index i fc hr
  simp only []
  split
  · rename_i hc
    apply Run.inBounds_bind _ _ _ (offsLoop_inBounds data _ _ _ _ _ (by omega))
    intro r' _
    rcases r' with ⟨mf, idx, o⟩
    simp only []
    split <;> exact Run.inBounds_pure _ _
  · exact Run.inBounds_pure _ _

/-- C13: the precondition inequalities of the first two checks are sufficient for
their reads.  On a buffer of at least 3 bytes the offset+size check (lines 48-68)
runs to completion and every element it accesses lies inside the buffer; and
when it does not accept, the same holds for the offset check (lines 70-101)
started at the cursor it left. -/
theorem first_two_checks_read_in_bounds (data : List Byte) (h : 3 ≤ data.length) :
    (∃ r, (matchOffsSize data data.length).val = some r)
    ∧ (∀ i, i ∈ (matchOffsSize data data.length).reads → i < data.length)
    ∧ ∀ i1, (matchOffsSize data data.length).val = some (false, i1) →
        (∃ r, (matchOffs data data.length i1).val = some r)
        ∧ ∀ i, i ∈ (matchOffs data data.length i1).reads → i < data.length := by
  obtain ⟨h1, h2⟩ := matchOffsSize_inBounds data (by omega)
  refine ⟨h1, h2, ?_⟩
  intro i1 hv
  have hi1 : i1 ≤ 1 := by
    rcases matchOffsSize_val data (by omega) with ⟨_, hv'⟩ | ⟨_, hv' | hv'⟩
    · rw [hv'] at hv; simp at hv
    · rw [hv'] at hv; simp at hv; omega
    · rw [hv'] at hv; simp at hv; omega
  exact matchOffs_inBounds data i1 hi1 h

theorem first_two_checks_read_in_bounds_witness :
    3 ≤ ([0, 1, 0, 0, 0, 0, 0] : List Byte).length
    ∧ (∃ r, (matchOffsSize [0, 1, 0, 0, 0, 0, 0]
          ([0, 1, 0, 0, 0, 0, 0] : List Byte).length).val = some r)
    ∧ (∀ i, i ∈ (matchOffsSize [0, 1, 0, 0, 0, 0, 0]
          ([0, 1, 0, 0, 0, 0, 0] : List Byte).length).reads →
        i < ([0, 1, 0, 0, 0, 0, 0] : List Byte).length)
    ∧ ∀ i1, (matchOffsSize [0, 1, 0, 0, 0, 0, 0]
          ([0, 1, 0, 0, 0, 0, 0] : List Byte).length).val = some (false, i1) →
        (∃ r, (matchOffs [0, 1, 0, 0, 0, 0, 0]
          ([0, 1, 0, 0, 0, 0, 0] : List Byte).length i1).val = some r)
        ∧ ∀ i, i ∈ (matchOffs [0, 1, 0, 0, 0, 0, 0]
          ([0, 1, 0, 0, 0, 0, 0] : List Byte).length i1).reads →
            i < ([0, 1, 0, 0, 0, 0, 0] : List Byte).length :=
  ⟨by decide, first_two_checks_read_in_bounds [0, 1, 0, 0, 0, 0, 0] (by decide)⟩

/-! ### The table recorded by the cascade -/

theorem getD_snoc_lt {α : Type} (l : List α) (a d : α) (j : Nat) (h : j < l.length) :
    (l ++ [a]).getD j d = l.getD j d :=
  List.getD_append l [a] d j h

theorem getD_snoc_eq {α : Type} (l : List α) (a d : α) (j : Nat) (h : j = l.length) :
    (l ++ [a]).getD j d = a := by
  rw [List.getD_append_right l [a] d j (by omega), h, Nat.sub_self]
  rfl

theorem int16At_le (data : List Byte) (c : Nat) : int16At data c ≤ 32767 := by
  have h0 := byteVal_lt data c
  have h1 := byteVal_lt data (c + 1)
  have hu : uint16At data c < 65536 := by
    unfold uint16At; omega
  unfold int16At
  rewrite [toInt16_natCast _ hu]
  split <;> omega

/-- What an iteration of the cascade that does not abort has done. -/
theorem minBody_some (data : List Byte) (s t : MinState)
    (h : (minBody data data.length s).val = some t) (hm : t.matchFound = true) :
    ∃ fs : Int, 0 ≤ fs ∧ fs ≤ 32767 ∧ fs < (data.length : Int)
      ∧ (s.index : Int) + 2 + fs ≤ (data.length : Int)
      ∧ t = { matchFound := s.matchFound, index := s.index + 2 + fs.toNat,
              fileCount := s.fileCount + 1,
              packFileOffsets := s.packFileOffsets ++ [s.index + 2],
              packFileSizes := s.packFileSizes ++ [fs] } := by
  rw [minBody, Run.val_bind] at h
  cases hg : (getShortFromBytes data s.index).val with
  | none => rw [hg] at h; simp at h
  | some r =>
    rcases r with ⟨fs, i⟩
    obtain ⟨_, hfs, rfl⟩ := getShortFromBytes_val_some data s.index i fs hg
    rw [hg, Option.some_bind] at h
    simp only [] at h
    by_cases hc : fs < 0 ∨ fs ≥ (data.length : Int)
        ∨ ((s.index + 2 : Nat) : Int) + fs > (data.length : Int)
    · rw [if_pos hc] at h
      simp only [Run.val_pure, Option.some.injEq] at h
      rw [← h] at hm
      simp at hm
    · rw [if_neg hc] at h
      simp only [Run.val_pure, Option.some.injEq] at h
      have hle := int16At_le data s.index
      refine ⟨fs, by omega, by omega, by omega, by push_cast at hc; omega, h.symm⟩

theorem minBody_tiled (data : List Byte) (s t : MinState)
    (h : (minBody data data.length s).val = some t) (hm : t.matchFound = true)
    (hs : s.Tiled data.length) : t.Tiled data.length := by
  obtain ⟨fs, h0, h1, h2, h3, rfl⟩ := minBody_some data s t h hm
  obtain ⟨hlo, hls, hsz, hch, hz, hp⟩ := hs
  refine ⟨?_, ?_, ?_, ?_, ?_, ?_⟩
  · simp only [List.length_append, List.length_singleton, hlo]
  · simp only [List.length_append, List.length_singleton, hls]
  · intro j hj
    simp only [] at hj ⊢
    by_cases hjc : j < s.fileCount
    · rw [getD_snoc_lt _ _ _ _ (by omega)]
      exact hsz j hjc
    · rw [getD_snoc_eq _ _ _ _ (by omega)]
      exact ⟨h0, h1, h2⟩
  · intro j hj
    simp only [] at hj ⊢
    by_cases hjc : j + 1 < s.fileCount
    · rw [getD_snoc_lt _ _ _ _ (by omega), getD_snoc_lt _ _ _ _ (by omega),
        getD_snoc_lt _ _ _ _ (by omega)]
      exact hch j hjc
    · have hj' : j = s.fileCount - 1 := by omega
      have hpos : 0 < s.fileCount := by omega
      rw [getD_snoc_eq _ _ _ _ (by omega), getD_snoc_lt _ _ _ _ (by omega),
        getD_snoc_lt _ _ _ _ (by omega), hj']
      have := (hp hpos).2
      push_cast
      omega
  · intro hc
    simp only [] at hc
    omega
  · intro _
    simp only []
    constructor
    · by_cases hc : s.fileCount = 0
      · rw [getD_snoc_eq _ _ _ _ (by omega), hz hc]
      · rw [getD_snoc_lt _ _ _ _ (by omega)]
        exact (hp (by omega)).1
    · rw [show s.fileCount + 1 - 1 = s.fileCount by omega,
        getD_snoc_eq _ _ _ _ (by omega), getD_snoc_eq _ _ _ _ (by omega)]
      push_cast
      omega

theorem minLoop_tiled (data : List Byte) (fuel : Nat) (s t : MinState)
    (h : (minLoop data data.length fuel s).val = some t) (hm : t.matchFound = true)
    (hs : s.Tiled data.length) : t.Tiled data.length := by
  induction fuel generalizing s with
  | zero =>
    simp only [minLoop, Run.val_pure, Option.some.injEq] at h
    rw [← h]; exact hs
  | succ fuel ih =>
    rw [minLoop] at h
    by_cases hc : (s.index : Int) < (data.length : Int)
    · rw [if_pos hc, Run.val_bind] at h
      cases hb : (minBody data data.length s).val with
      | none => rw [hb] at h; simp at h
      | some u =>
        rw [hb, Option.some_bind] at h
        by_cases hu : u.matchFound = true
        · rw [if_pos hu] at h
          exact ih u h (minBody_tiled data s u hb hu hs)
        · rw [if_neg hu] at h
          simp only [Run.val_pure, Option.some.injEq] at h
          rw [← h] at hm
          exact absurd hm hu
    · rw [if_neg hc] at h
      simp only [Run.val_pure, Option.some.injEq] at h
      rw [← h]; exact hs

theorem minInit_tiled (L : Nat) : minInit.Tiled L := by
  refine ⟨rfl, rfl, ?_, ?_, fun _ => rfl, ?_⟩
  · intro j hj; exact absurd hj (Nat.not_lt_zero j)
  · intro j hj; exact absurd hj (Nat.not_lt_zero _)
  · intro hj; exact absurd hj (Nat.lt_irrefl 0)

/-- When the last check classifies as a pack, its loop ended at the end of the buffer
without aborting. -/
theorem matchMin_pack (data : List Byte) (f : Format)
    (h : (matchMin data data.length).val = some f) (hf : f ≠ FORMAT_FILE_GENERIC) :
    ∃ s : MinState, (minLoop data data.length data.length minInit).val = some s
      ∧ s.matchFound = true ∧ 0 < s.index ∧ s.index = data.length := by
  rw [matchMin, Run.val_bind] at h
  cases hs : (minLoop data data.length data.length minInit).val with
  | none => rw [hs] at h; simp at h
  | some s =>
    rw [hs, Option.some_bind] at h
    by_cases hc : s.matchFound = true ∧ s.index > 0 ∧ (s.index : Int) = (data.length : Int)
    · exact ⟨s, rfl, hc.1, hc.2.1, by omega⟩
    · rw [if_neg hc] at h
      simp only [Run.val_pure, Option.some.injEq] at h
      exact absurd h.symm hf

/-- C15: whenever the classification is `FORMAT_PK_MIN` or `FORMAT_FILE_TXT_PK`, the
sub-entry table recorded by the cascade tiles the buffer exactly: there is at
least one entry, the first recorded offset is 2, every recorded size `s`
satisfies `0 ≤ s ≤ 32767` and `s < totalLength`, each next offset is the previous
offset plus the previous size plus 2, and the last offset plus the last size is
`totalLength`. -/
theorem classify_pack_table_tiles (data : List Byte)
    (h : (classify data).val = some FORMAT_PK_MIN
      ∨ (classify data).val = some FORMAT_FILE_TXT_PK) :
    ∃ s : MinState,
      (minLoop data data.length data.length minInit).val = some s
      ∧ 1 ≤ s.fileCount
      ∧ s.packFileOffsets.length = s.fileCount ∧ s.packFileSizes.length = s.fileCount
      ∧ s.packFileOffsets.getD 0 0 = 2
      ∧ (∀ j, j < s.fileCount →
          0 ≤ s.packFileSizes.getD j 0 ∧ s.packFileSizes.getD j 0 ≤ 32767
            ∧ s.packFileSizes.getD j 0 < (data.length : Int))
      ∧ (∀ j, j + 1 < s.fileCount →
          (s.packFileOffsets.getD (j + 1) 0 : Int)
            = (s.packFileOffsets.getD j 0 : Int) + s.packFileSizes.getD j 0 + 2)
      ∧ (s.packFileOffsets.getD (s.fileCount - 1) 0 : Int)
          + s.packFileSizes.getD (s.fileCount - 1) 0 = (data.length : Int) := by
  have hmin : ∃ f, (matchMin data data.length).val = some f ∧ f ≠ FORMAT_FILE_GENERIC := by
    rcases h with h | h
    · rcases classify_inv data _ h with ⟨_, hf⟩ | ⟨_, _, _, hf⟩ | ⟨_, _, _, _, _, hf⟩
        | ⟨_, _, _, _, _, _, _, hf⟩ | ⟨_, _, hf⟩ | ⟨_, _, hm⟩
      · cases hf
      · cases hf
      · cases hf
      · cases hf
      · cases hf
      · exact ⟨_, hm, by decide⟩
    · rcases classify_inv data _ h with ⟨_, hf⟩ | ⟨_, _, _, hf⟩ | ⟨_, _, _, _, _, hf⟩
        | ⟨_, _, _, _, _, _, _, hf⟩ | ⟨_, _, hf⟩ | ⟨_, _, hm⟩
      · cases hf
      · cases hf
      · cases hf
      · cases hf
      · cases hf
      · exact ⟨_, hm, by decide⟩
  obtain ⟨f, hm, hf⟩ := hmin
  obtain ⟨s, hs, hmf, hpos, hend⟩ := matchMin_pack data f hm hf
  obtain ⟨hlo, hls, hsz, hch, hz, hp⟩ :=
    minLoop_tiled data data.length minInit s hs hmf (minInit_tiled _)
  have hcount : 0 < s.fileCount := by
    by_cases hc : s.fileCount = 0
    · have := hz hc; omega
    · omega
  refine ⟨s, hs, hcount, hlo, hls, (hp hcount).1, hsz, hch, ?_⟩
  rw [(hp hcount).2, hend]

theorem classify_pack_table_tiles_witness :
    ((classify [0x02, 0x00, 0xAA, 0xBB, 0x02, 0x00, 0xCC, 0xDD]).val = some FORMAT_PK_MIN
      ∨ (classify [0x02, 0x00, 0xAA, 0xBB, 0x02, 0x00, 0xCC, 0xDD]).val
          = some FORMAT_FILE_TXT_PK)
    ∧ ∃ s : MinState,
      (minLoop [0x02, 0x00, 0xAA, 0xBB, 0x02, 0x00, 0xCC, 0xDD]
          ([0x02, 0x00, 0xAA, 0xBB, 0x02, 0x00, 0xCC, 0xDD] : List Byte).length
          ([0x02, 0x00, 0xAA, 0xBB, 0x02, 0x00, 0xCC, 0xDD] : List Byte).length minInit).val
        = some s
      ∧ 1 ≤ s.fileCount
      ∧ s.packFileOffsets.length = s.fileCount ∧ s.packFileSizes.length = s.fileCount
      ∧ s.packFileOffsets.getD 0 0 = 2
      ∧ (∀ j, j < s.fileCount →
          0 ≤ s.packFileSizes.getD j 0 ∧ s.packFileSizes.getD j 0 ≤ 32767
            ∧ s.packFileSizes.getD j 0
                < (([0x02, 0x00, 0xAA, 0xBB, 0x02, 0x00, 0xCC, 0xDD] : List Byte).length : Int))
      ∧ (∀ j, j + 1 < s.fileCount →
          (s.packFileOffsets.getD (j + 1) 0 : Int)
            = (s.packFileOffsets.getD j 0 : Int) + s.packFileSizes.getD j 0 + 2)
      ∧ (s.packFileOffsets.getD (s.fileCount - 1) 0 : Int)
          + s.packFileSizes.getD (s.fileCount - 1) 0
            = (([0x02, 0x00, 0xAA, 0xBB, 0x02, 0x00, 0xCC, 0xDD] : List Byte).length : Int) :=
  ⟨Or.inl (by decide),
    classify_pack_table_tiles [0x02, 0x00, 0xAA, 0xBB, 0x02, 0x00, 0xCC, 0xDD]
      (Or.inl (by decide))⟩

/-! ### Completion of the alt offset check and signature buffers -/

theorem classifyMem_self (data : List Byte) : classifyMem data.length data = classify data :=
  rfl

/-- C5 (evaluation at a failing input): the signature loop of lines 144-149 compares
`data[0..5]` without testing the length.  On the 3-byte buffer `DF 03 01` it reads
`data[3]`, outside the buffer (and so does line 105 before it); when the bytes that
follow the vector are `01 01 01 00`, the three earlier checks reject and the
buffer of 3 bytes is classified `FORMAT_FILE_GFX`; when they are zero it is
`FORMAT_FILE_GENERIC`. -/
theorem classify_gfx_short_buffer :
    matchGfx [0xDF, 0x03, 0x01] = Run.mk [0, 1, 2, 3] none
    ∧ classify [0xDF, 0x03, 0x01] = Run.mk [0, 1, 2, 3] none
    ∧ classifyMem 3 ([0xDF, 0x03, 0x01] ++ [0x01, 0x01, 0x01, 0x00])
        = Run.mk [0, 1, 2, 3, 4, 5, 6, 0, 1, 2, 3, 4, 5] (some FORMAT_FILE_GFX)
    ∧ (classifyMem 3 ([0xDF, 0x03, 0x01] ++ [0x00, 0x00, 0x00, 0x00])).val
        = some FORMAT_FILE_GENERIC := by
  decide

/-- C8 (evaluation at a failing input): on the 11-byte buffer
`00 00 00 01 00 00 00 00 00 00 00` the alt offset check decodes the count 1 at
cursor 3 and one offset from bytes 7..10, so its table ends at the end of the
buffer (the test of line 110 allows `index + 4 == packFileSize`); the trailing-byte
test of line 135 then reads `data[11]`, outside the buffer.  The buffer has no byte
behind its table, and it is classified `FORMAT_PK_OFFS_ALT` when the byte that
follows the vector is `00`, `FORMAT_FILE_GENERIC` when it is `01`. -/
theorem classify_offs_alt_table_at_end :
    classify [0, 0, 0, 1, 0, 0, 0, 0, 0, 0, 0]
        = Run.mk [0, 1, 2, 3, 4, 5, 6, 7, 8, 9, 10, 11] none
    ∧ ([0, 0, 0, 1, 0, 0, 0, 0, 0, 0, 0] : List Byte)[3 + 4 + 4 * 1]? = none
    ∧ classifyMem 11 ([0, 0, 0, 1, 0, 0, 0, 0, 0, 0, 0] ++ [0x00])
        = Run.mk [0, 1, 2, 3, 4, 5, 6, 7, 8, 9, 10, 11] (some FORMAT_PK_OFFS_ALT)
    ∧ (classifyMem 11 ([0, 0, 0, 1, 0, 0, 0, 0, 0, 0, 0] ++ [0x01])).val
        = some FORMAT_FILE_GENERIC := by
  decide

/-- C12 (evaluation at a failing input): the format is not determined by the data
bytes.  On the 7-byte buffer `03 00 00 00 00 00 00` the constructor reads the 16-bit
count of line 177 at `data[7]`, `data[8]`, outside the buffer, and the same seven
bytes are classified `FORMAT_FILE_TXT_PK` when the two bytes that follow the vector
are `FF FF` and `FORMAT_PK_MIN` when they are `00 00`; likewise the 11-byte buffer
`00 00 00 01 00 00 00 00 00 00 00` is `FORMAT_PK_OFFS_ALT` or `FORMAT_FILE_GENERIC`
according to the byte that follows it. -/
theorem classify_follows_bytes_behind_buffer :
    (classify [3, 0, 0, 0, 0, 0, 0]).val = none
    ∧ (classifyMem 7 ([3, 0, 0, 0, 0, 0, 0] ++ [0xFF, 0xFF])).val = some FORMAT_FILE_TXT_PK
    ∧ (classifyMem 7 ([3, 0, 0, 0, 0, 0, 0] ++ [0x00, 0x00])).val = some FORMAT_PK_MIN
    ∧ (classifyMem 11 ([0, 0, 0, 1, 0, 0, 0, 0, 0, 0, 0] ++ [0x00, 0x00])).val
        = some FORMAT_PK_OFFS_ALT
    ∧ (classifyMem 11 ([0, 0, 0, 1, 0, 0, 0, 0, 0, 0, 0] ++ [0x01, 0x00])).val
        = some FORMAT_FILE_GENERIC := by
  decide

end AssetFile
